import Mathlib

/-!
Verification development for the appointment-assignment engine of
`Program_Final__LuxuryBath.py`.

The Python core is shallowly embedded as pure Lean functions:

* Python `dict`s of sales reps become association lists (`Roster`); the
  theorems that depend on dict-key uniqueness take a `Nodup` hypothesis on
  the key list.
* The module's mutable state (the drive-time cache, the oracle call count,
  the printed diagnostics) is threaded explicitly as an `EngineState`.
* The external Google-Maps distance-matrix call is a parameter
  `oracle : String → String → Option ℚ`; it models
  `gmaps.distance_matrix` together with the seconds→minutes conversion of
  the source (`duration.value / 60`), so its value is the drive time in
  minutes, and `none` models a non-`"OK"` status.
* `datetime.strptime` is a parameter `parse : String → Int`; appointment
  dates are `DateVal`, either a raw string (as imported) or a parsed
  timestamp, mirroring the in-place normalization the source performs.
* Python's stable `sorted` is modelled by `List.insertionSort` (a stable
  sort) with the corresponding key relation.
-/

namespace LuxuryBath

/-! ## String ordering (Python `sorted` on strings) -/

/-- Lexicographic comparison of character lists by code point, as Python
compares strings. -/
def charsLE : List Char → List Char → Bool
  | [], _ => true
  | _ :: _, [] => false
  | c :: cs, d :: ds => if c = d then charsLE cs ds else decide (c < d)

/-- String order used by Python's `sorted` on the two zip codes. -/
def strLE (a b : String) : Bool := charsLE a.data b.data

/-! ## Data model -/

/-- An appointment date: either the raw string produced by the importer or a
parsed timestamp (seconds). The source converts raw strings in place with
`datetime.strptime`. -/
inductive DateVal where
  | raw (s : String)
  | parsed (t : Int)
deriving DecidableEq

/-- An appointment record (`custnumber`, `apptdate`, `Zip`, `productid`,
`dsp_id`), consumed by the engine. -/
structure Appointment where
  custnumber : String
  apptdate : DateVal
  Zip : String
  productid : String
  dsp_id : String
deriving DecidableEq

/-- A sales representative's details: current zip code and product scope. -/
structure RepDetails where
  curr_zip : String
  scope : List String
deriving DecidableEq

/-- The sales-rep dictionary, as an association list in insertion order.
Python dict keys are unique; theorems that rely on this take a `Nodup`
hypothesis on `ros.map Prod.fst`. -/
abbrev Roster := List (String × RepDetails)

/-- One entry of the returned assignment list: the appointment, the name of
the assigned rep, and the drive time (minutes) recorded at matching time. -/
structure Assignment where
  appointment : Appointment
  assigned_to : String
  drive_time : ℚ
deriving DecidableEq

/-- The engine-visible mutable state of one `assign_to_closest_rep` call:
the drive-time cache (keyed by the sorted zip pair), the number of external
oracle calls made so far, and the printed diagnostics. -/
structure EngineState where
  cache : List ((String × String) × ℚ)
  calls : Nat
  log : List String
deriving DecidableEq

/-- The state `assign_to_closest_rep` starts from: the cache is created
empty inside each call (`drive_time_cache = {}`). -/
def initState : EngineState := ⟨[], 0, []⟩

/-! ## Cost cache (`get_drive_time`) -/

/-- Cache key: the unordered zip pair, normalized by sorting
(`tuple(sorted([zip1, zip2]))`). -/
def cacheKey (z1 z2 : String) : String × String :=
  if strLE z1 z2 then (z1, z2) else (z2, z1)

/-- Diagnostic printed when the distance-matrix call fails. -/
def apiFailMsg (z1 z2 : String) : String :=
  "API call failed for zip pair: " ++ z1 ++ " -> " ++ z2

/-- `get_drive_time(zip1, zip2)`: return the cached drive time for the
normalized pair if present; otherwise call the oracle, cache and return the
minutes on success, and return `none` (caching nothing, logging a
diagnostic) on failure. The call counter counts oracle calls. -/
def get_drive_time (oracle : String → String → Option ℚ) (z1 z2 : String)
    (s : EngineState) : Option ℚ × EngineState :=
  match s.cache.lookup (cacheKey z1 z2) with
  | some v => (some v, s)
  | none =>
    match oracle z1 z2 with
    | some v =>
      (some v, { s with cache := (cacheKey z1 z2, v) :: s.cache, calls := s.calls + 1 })
    | none =>
      (none, { s with calls := s.calls + 1, log := s.log ++ [apiFailMsg z1 z2] })

/-! ## Date normalization and the window partitioner -/

/-- In-place date conversion of the source: a raw string date becomes the
parsed timestamp, a parsed date is left as is. -/
def normDate (parse : String → Int) : DateVal → DateVal
  | .raw s => .parsed (parse s)
  | .parsed t => .parsed t

/-- The timestamp of a date value. -/
def dateOf (parse : String → Int) : DateVal → Int
  | .raw s => parse s
  | .parsed t => t

/-- One appointment after the source's in-place `strptime` normalization
(only the `apptdate` field can change). -/
def normalizeAppt (parse : String → Int) (a : Appointment) : Appointment :=
  { a with apptdate := normDate parse a.apptdate }

/-- The appointment collection after the source's normalization loop. -/
def normalizeAppointments (parse : String → Int) (l : List Appointment) : List Appointment :=
  l.map (normalizeAppt parse)

/-- Window partitioner: the appointments whose date lies in
`[t0, t1]`, both endpoints inclusive, in input order. -/
def windowFilter (parse : String → Int) (t0 t1 : Int) (l : List Appointment) :
    List Appointment :=
  l.filter fun a => decide (t0 ≤ dateOf parse a.apptdate) && decide (dateOf parse a.apptdate ≤ t1)

/-! ## Greedy matcher -/

/-- One iteration of the `for rep, details in sales_reps.items()` loop:
if the rep passes the eligibility test, look up the drive time and keep the
rep iff the time is known and strictly below the current minimum
(`closest_rep = None` together with `min_drive_time = inf` is modelled as
`none`). -/
def considerRep (oracle : String → String → Option ℚ) (z : String)
    (elig : String × RepDetails → Bool)
    (st : Option (String × ℚ) × EngineState) (p : String × RepDetails) :
    Option (String × ℚ) × EngineState :=
  if elig p then
    let r := get_drive_time oracle z p.2.curr_zip st.2
    match r.1 with
    | some t =>
      match st.1 with
      | none => (some (p.1, t), r.2)
      | some q => if t < q.2 then (some (p.1, t), r.2) else (st.1, r.2)
    | none => (st.1, r.2)
  else st

/-- Eligibility in the initial pass: `product_id in details["scope"]`. -/
def eligScope (pid : String) (p : String × RepDetails) : Bool :=
  decide (pid ∈ p.2.scope)

/-- Eligibility in the reassignment pass:
`product_id in details["scope"] and not rep_appointments[rep]`. -/
def eligIdle (pid : String) (f : String → List Appointment)
    (p : String × RepDetails) : Bool :=
  decide (pid ∈ p.2.scope) && (f p.1).isEmpty

/-- The rep-selection loop of the initial pass for one appointment. -/
def selectClosest (oracle : String → String → Option ℚ) (z pid : String)
    (roster : Roster) (s : EngineState) : Option (String × ℚ) × EngineState :=
  roster.foldl (considerRep oracle z (eligScope pid)) (none, s)

/-- The rep-selection loop of the reassignment pass for one appointment. -/
def selectIdle (oracle : String → String → Option ℚ) (z pid : String)
    (f : String → List Appointment) (roster : Roster) (s : EngineState) :
    Option (String × ℚ) × EngineState :=
  roster.foldl (considerRep oracle z (eligIdle pid f)) (none, s)

/-- Diagnostic printed when no rep can serve an appointment in the initial
pass. -/
def noRepMsg (a : Appointment) : String :=
  "No eligible rep found for appointment " ++ a.custnumber ++ " (" ++ a.Zip ++ ")"

/-- Diagnostic printed when no rep can serve an appointment in the
reassignment pass. -/
def couldNotMsg (a : Appointment) : String :=
  "Could not assign appointment " ++ a.custnumber ++ " (" ++ a.Zip ++ ")."

/-- Intermediate state of the matching passes: the assignment list built so
far, the `rep_appointments` dictionary (as a total function, `[]` for reps
with no assignment), and the engine state. -/
structure PassState where
  assignments : List Assignment
  repAppts : String → List Appointment
  state : EngineState

/-- One iteration of the initial pass (Step 1 of the source): select the
closest eligible rep; on success record the assignment (`if closest_rep:`
is Python truthiness, so an empty rep name is also treated as no match),
otherwise log the diagnostic and continue. -/
def step1Go (oracle : String → String → Option ℚ) (roster : Roster)
    (acc : PassState) (a : Appointment) : PassState :=
  let r := selectClosest oracle a.Zip a.productid roster acc.state
  match r.1 with
  | some q =>
    if q.1 = "" then
      { acc with state := { r.2 with log := r.2.log ++ [noRepMsg a] } }
    else
      { assignments := acc.assignments ++ [⟨a, q.1, q.2⟩],
        repAppts := fun n => if n = q.1 then acc.repAppts n ++ [a] else acc.repAppts n,
        state := r.2 }
  | none => { acc with state := { r.2 with log := r.2.log ++ [noRepMsg a] } }

/-- Step 1 of `assign_to_closest_rep`: initial assignment of the filtered
appointments, closest eligible rep first. -/
def initialPass (oracle : String → String → Option ℚ) (roster : Roster)
    (appts : List Appointment) (s : EngineState) : PassState :=
  appts.foldl (step1Go oracle roster) ⟨[], fun _ => [], s⟩

/-! ## Conflict resolver -/

/-- One iteration of the double-booking loop (Step 2 of the source) for the
rep `p`: if the rep holds more than one appointment, sort that rep's
current assignments by drive time ascending (Python's stable `sorted`,
modelled by the stable `insertionSort`), keep the cheapest, remove every
other assignment from the list and collect its appointment as unassigned.
The `[]` branch is unreachable when `f` reflects `asgs` (Python would raise
`IndexError` on `pop(0)`). -/
def resolveOne (f : String → List Appointment)
    (st : List Assignment × List Appointment) (p : String × RepDetails) :
    List Assignment × List Appointment :=
  if (f p.1).length > 1 then
    match (st.1.filter fun x => x.assigned_to == p.1).insertionSort
        (fun x y => x.drive_time ≤ y.drive_time) with
    | [] => st
    | _kept :: extras =>
      (extras.foldl (fun l e => l.erase e) st.1, st.2 ++ extras.map (·.appointment))
  else st

/-- Step 2 of `assign_to_closest_rep`: iterate over the reps (dict order =
roster order) and free all but the cheapest assignment of each
double-booked rep. Returns the surviving assignments and the unassigned
appointments. -/
def resolveConflicts (roster : Roster) (f : String → List Appointment)
    (asgs : List Assignment) : List Assignment × List Appointment :=
  roster.foldl (resolveOne f) (asgs, [])

/-! ## Reassignment pass -/

/-- One iteration of the reassignment loop (Step 3 of the source): select
the closest eligible rep among those with no appointment so far; on success
record the assignment, otherwise log the diagnostic. -/
def step3Go (oracle : String → String → Option ℚ) (roster : Roster)
    (acc : PassState) (a : Appointment) : PassState :=
  let r := selectIdle oracle a.Zip a.productid acc.repAppts roster acc.state
  match r.1 with
  | some q =>
    if q.1 = "" then
      { acc with state := { r.2 with log := r.2.log ++ [couldNotMsg a] } }
    else
      { assignments := acc.assignments ++ [⟨a, q.1, q.2⟩],
        repAppts := fun n => if n = q.1 then acc.repAppts n ++ [a] else acc.repAppts n,
        state := r.2 }
  | none => { acc with state := { r.2 with log := r.2.log ++ [couldNotMsg a] } }

/-- Step 3 of `assign_to_closest_rep`: reassign the freed appointments to
reps that are still idle. -/
def reassignPass (oracle : String → String → Option ℚ) (roster : Roster)
    (unas : List Appointment) (asgs : List Assignment)
    (f : String → List Appointment) (s : EngineState) : PassState :=
  unas.foldl (step3Go oracle roster) ⟨asgs, f, s⟩

/-! ## The assignment engine -/

/-- The full result of one `assign_to_closest_rep` call: the returned
assignment list, the final engine state, and the appointment collection as
the caller observes it afterwards (the source normalizes dates in place). -/
structure EngineOut where
  assignments : List Assignment
  state : EngineState
  appointments : List Appointment

/-- `assign_to_closest_rep`: normalize the appointment dates in place,
filter to the window, run the initial pass, resolve double bookings, and
re-run the freed appointments restricted to idle reps. The drive-time
cache, call counter and log start fresh in each call. -/
def assign_to_closest_rep (oracle : String → String → Option ℚ)
    (parse : String → Int) (appointments : List Appointment)
    (sales_reps : Roster) (t0 t1 : Int) : EngineOut :=
  let appts := normalizeAppointments parse appointments
  let filtered := windowFilter parse t0 t1 appts
  let o1 := initialPass oracle sales_reps filtered initState
  let r2 := resolveConflicts sales_reps o1.repAppts o1.assignments
  let o3 := reassignPass oracle sales_reps r2.2 r2.1 o1.repAppts o1.state
  ⟨o3.assignments, o3.state, appts⟩

/-! ## Roster state updater (`update_sales_reps_zip`) -/

/-- Build the `rep_assignments` dictionary: group the assignments'
appointments by rep, keys in first-occurrence order, values in assignment
order. -/
def addToGroup (acc : List (String × List Appointment)) (r : String)
    (a : Appointment) : List (String × List Appointment) :=
  if acc.any (fun p => p.1 == r) then
    acc.map fun p => if p.1 == r then (p.1, p.2 ++ [a]) else p
  else acc ++ [(r, [a])]

/-- The grouping loop of `update_sales_reps_zip`. -/
def groupByRep (asgs : List Assignment) : List (String × List Appointment) :=
  asgs.foldl (fun acc x => addToGroup acc x.assigned_to x.appointment) []

/-- Set `sales_reps[rep]["curr_zip"] = z` (a no-op on names not present;
the source would raise `KeyError`, which is unreachable in the workflow). -/
def setCurrZip (ros : Roster) (r z : String) : Roster :=
  ros.map fun p => if p.1 = r then (p.1, { p.2 with curr_zip := z }) else p

/-- `update_sales_reps_zip`: for each rep with at least one assignment, sort
that rep's appointments by date (stable) and move the rep to the zip of
the last one. The `none` branch is unreachable: groups are nonempty. -/
def update_sales_reps_zip (parse : String → Int) (asgs : List Assignment)
    (ros : Roster) : Roster :=
  (groupByRep asgs).foldl
    (fun acc p =>
      match (p.2.insertionSort
          (fun x y => dateOf parse x.apptdate ≤ dateOf parse y.apptdate)).getLast? with
      | some lastA => setCurrZip acc p.1 lastA.Zip
      | none => acc)
    ros

/-! ## Window orchestrator (`main_workflow`) -/

/-- Earliest appointment timestamp (Python `min`; `0` on the empty list,
where the source would raise). -/
def minDate (parse : String → Int) (l : List Appointment) : Int :=
  match l.map (fun a => dateOf parse a.apptdate) with
  | [] => 0
  | x :: xs => xs.foldl min x

/-- Latest appointment timestamp (Python `max`; `0` on the empty list). -/
def maxDate (parse : String → Int) (l : List Appointment) : Int :=
  match l.map (fun a => dateOf parse a.apptdate) with
  | [] => 0
  | x :: xs => xs.foldl max x

/-- The hard-coded window sequence of `main_workflow` (times in seconds):
window 1 is `[e, e+2h]`, window 2 `[e+2h1m, e+5h]`, window 3
`[e+5h1m, last]`; windows 1 and 2 allow roster modification afterwards. -/
def timeWindows (e la : Int) : List (Nat × Int × Int × Bool) :=
  [(1, e, e + 7200, true),
   (2, e + 7260, e + 18000, true),
   (3, e + 18060, la, false)]

/-- Run-level output of `main_workflow`: the accumulated per-window result
rows (window ordinal paired with the assignment the row is built from), the
final roster, the total number of external oracle calls of the run, and the
concatenated diagnostics. -/
structure MainOut where
  results : List (Nat × Assignment)
  roster : Roster
  calls : Nat
  log : List String

/-- `main_workflow`: normalize dates, derive the three windows from the
earliest and latest appointment, and for each window in order run the
engine, update the reps' current zips, and (on mutation-eligible windows)
hand the roster to the external editor `edit`. Results accumulate in window
order. -/
def main_workflow (oracle : String → String → Option ℚ) (parse : String → Int)
    (edit : Nat → Roster → Roster) (appointments : List Appointment)
    (sales_reps : Roster) : MainOut :=
  let appts := normalizeAppointments parse appointments
  let e := minDate parse appts
  let la := maxDate parse appts
  (timeWindows e la).foldl
    (fun acc w =>
      let out := assign_to_closest_rep oracle parse appts acc.roster w.2.1 w.2.2.1
      let ros1 := update_sales_reps_zip parse out.assignments acc.roster
      let ros2 := if w.2.2.2 then edit w.1 ros1 else ros1
      { results := acc.results ++ out.assignments.map (fun x => (w.1, x)),
        roster := ros2,
        calls := acc.calls + out.state.calls,
        log := acc.log ++ out.state.log })
    ⟨[], sales_reps, 0, []⟩

/-! ## String order lemmas -/

theorem charsLE_total (a b : List Char) : charsLE a b = true ∨ charsLE b a = true := by
  induction a generalizing b with
  | nil => left; rfl
  | cons c cs ih =>
    cases b with
    | nil => right; rfl
    | cons d ds =>
      by_cases h : c = d
      · subst h
        rcases ih ds with h1 | h1
        · left; simp [charsLE, h1]
        · right; simp [charsLE, h1]
      · rcases lt_trichotomy c d with h1 | h1 | h1
        · left; simp [charsLE, h, h1]
        · exact absurd h1 h
        · right
          have h2 : d ≠ c := fun hh => h hh.symm
          simp [charsLE, h2, h1]

theorem charsLE_antisymm (a b : List Char) (h1 : charsLE a b = true)
    (h2 : charsLE b a = true) : a = b := by
  induction a generalizing b with
  | nil =>
    cases b with
    | nil => rfl
    | cons d ds => simp [charsLE] at h2
  | cons c cs ih =>
    cases b with
    | nil => simp [charsLE] at h1
    | cons d ds =>
      by_cases h : c = d
      · subst h
        simp only [charsLE, if_pos rfl] at h1 h2
        rw [ih ds h1 h2]
      · have h' : d ≠ c := fun hh => h hh.symm
        simp only [charsLE, if_neg h, decide_eq_true_eq] at h1
        simp only [charsLE, if_neg h', decide_eq_true_eq] at h2
        exact absurd (lt_trans h1 h2) (lt_irrefl c)

theorem strLE_total (a b : String) : strLE a b = true ∨ strLE b a = true :=
  charsLE_total a.data b.data

theorem strLE_antisymm (a b : String) (h1 : strLE a b = true)
    (h2 : strLE b a = true) : a = b := by
  cases a; cases b
  simp only [strLE] at h1 h2
  exact congrArg String.mk (charsLE_antisymm _ _ h1 h2)

theorem cacheKey_comm (z1 z2 : String) : cacheKey z1 z2 = cacheKey z2 z1 := by
  unfold cacheKey
  by_cases h1 : strLE z1 z2 = true <;> by_cases h2 : strLE z2 z1 = true <;> simp [h1, h2]
  · have h := strLE_antisymm _ _ h1 h2
    exact ⟨h, h.symm⟩
  · rcases strLE_total z1 z2 with h | h <;> simp_all

theorem cacheKey_inj (z a b : String) (h : cacheKey z a = cacheKey z b) : a = b := by
  unfold cacheKey at h
  by_cases h1 : strLE z a = true <;> by_cases h2 : strLE z b = true <;>
    simp only [h1, h2, Bool.false_eq_true, ite_true, ite_false, Prod.mk.injEq] at h
  · exact h.2
  · exact h.2.trans h.1
  · exact h.1.trans h.2
  · exact h.1

/-! ## Cost-cache lemmas -/

theorem lookup_cons_self {α β : Type} [BEq α] [LawfulBEq α] (k : α) (v : β)
    (c : List (α × β)) : ((k, v) :: c).lookup k = some v := by
  simp [List.lookup]

theorem lookup_cons_ne {α β : Type} [BEq α] [LawfulBEq α] (k k' : α) (v : β)
    (c : List (α × β)) (h : k' ≠ k) : ((k, v) :: c).lookup k' = c.lookup k' := by
  rw [List.lookup]
  have hb : (k' == k) = false := beq_eq_false_iff_ne.mpr h
  rw [hb]

/-- The value component of `get_drive_time` is the cached value if present,
else the oracle's answer. -/
theorem gdt_fst (o : String → String → Option ℚ) (z1 z2 : String) (s : EngineState) :
    (get_drive_time o z1 z2 s).1 = (s.cache.lookup (cacheKey z1 z2)).or (o z1 z2) := by
  unfold get_drive_time
  cases hc : s.cache.lookup (cacheKey z1 z2) with
  | some v => rfl
  | none => cases o z1 z2 <;> rfl

/-- How one `get_drive_time` call changes the cache, seen through `lookup`:
only the normalized key of the queried pair can gain an entry (on a
successful miss), and no entry is ever removed or overwritten. -/
theorem gdt_cache_lookup (o : String → String → Option ℚ) (z1 z2 : String)
    (s : EngineState) (k : String × String) :
    ((get_drive_time o z1 z2 s).2).cache.lookup k =
      if k = cacheKey z1 z2 then (s.cache.lookup k).or (o z1 z2)
      else s.cache.lookup k := by
  by_cases hk : k = cacheKey z1 z2
  · subst hk
    rw [if_pos rfl]
    unfold get_drive_time
    cases hc : s.cache.lookup (cacheKey z1 z2) with
    | some v => simp [hc]
    | none =>
      cases ho : o z1 z2 with
      | some v => simp [hc, ho, lookup_cons_self]
      | none => simp [hc, ho]
  · rw [if_neg hk]
    unfold get_drive_time
    cases hc : s.cache.lookup (cacheKey z1 z2) with
    | some v => rfl
    | none =>
      cases ho : o z1 z2 with
      | some v => simp [hc, ho, lookup_cons_ne _ _ _ _ hk]
      | none => simp [hc, ho]

/-- On a cache hit `get_drive_time` returns the cached value and leaves the
state (cache, call counter, log) untouched. -/
theorem gdt_hit (o : String → String → Option ℚ) (z1 z2 : String)
    (s : EngineState) (v : ℚ) (h : s.cache.lookup (cacheKey z1 z2) = some v) :
    get_drive_time o z1 z2 s = (some v, s) := by
  unfold get_drive_time
  rw [h]

/-- Fixing the origin zip, the answer of `get_drive_time` for a pair is not
changed by running another `get_drive_time` with the same origin first. -/
theorem gdt_gdt_stable (o : String → String → Option ℚ) (z z2 z3 : String)
    (s : EngineState) (v : Option ℚ) (h : (get_drive_time o z z2 s).1 = v) :
    (get_drive_time o z z2 (get_drive_time o z z3 s).2).1 = v := by
  subst h
  rw [gdt_fst, gdt_fst, gdt_cache_lookup]
  by_cases hk : cacheKey z z2 = cacheKey z z3
  · have hz : z2 = z3 := cacheKey_inj z z2 z3 hk
    subst hz
    rw [if_pos hk]
    cases s.cache.lookup (cacheKey z z2) <;> cases o z z2 <;> rfl
  · rw [if_neg hk]

/-- The log of `get_drive_time` only grows. -/
theorem gdt_log_mono (o : String → String → Option ℚ) (z1 z2 : String)
    (s : EngineState) (m : String) (h : m ∈ s.log) :
    m ∈ ((get_drive_time o z1 z2 s).2).log := by
  unfold get_drive_time
  cases s.cache.lookup (cacheKey z1 z2) with
  | some v => exact h
  | none =>
    cases o z1 z2 with
    | some v => exact h
    | none => simp [h]

/-! ## C5 — cache symmetry and idempotence -/

/-- C5 as stated is false on the code: a failed lookup is not cached and is
retried, so with an oracle that fails for `("A","B")` queried in that order
but succeeds for `("B","A")`, `get_drive_time "A" "B"` returns the unknown
marker while the immediately following `get_drive_time "B" "A"` returns a
value — the two orders disagree — and two calls for the same unordered pair
issue two external oracle calls (`calls = 2`). -/
theorem C5_counterexample :
    ((get_drive_time (fun z1 _ => if z1 = "A" then none else some 60) "A" "B" initState).1
        = none) ∧
    ((get_drive_time (fun z1 _ => if z1 = "A" then none else some 60) "B" "A"
        ((get_drive_time (fun z1 _ => if z1 = "A" then none else some 60) "A" "B"
          initState).2)).1 = some 60) ∧
    (((get_drive_time (fun z1 _ => if z1 = "A" then none else some 60) "A" "B"
        ((get_drive_time (fun z1 _ => if z1 = "A" then none else some 60) "A" "B"
          initState).2)).2).calls = 2) := by
  refine ⟨by decide, by decide, by decide⟩

/-- C5, amended: when a `get_drive_time` call succeeds, symmetry and
idempotence hold — the swapped-order call and the repeated call both hit
the cache, return the same value, and leave the state unchanged (so no
second oracle call is issued). A failed lookup is not cached and is
retried. -/
theorem C5_cache_symm_idem (o : String → String → Option ℚ) (a b : String)
    (s : EngineState) (v : ℚ) (h : (get_drive_time o a b s).1 = some v) :
    get_drive_time o b a (get_drive_time o a b s).2 =
      (some v, (get_drive_time o a b s).2) ∧
    get_drive_time o a b (get_drive_time o a b s).2 =
      (some v, (get_drive_time o a b s).2) := by
  have hc : ((get_drive_time o a b s).2).cache.lookup (cacheKey a b) = some v := by
    rw [gdt_cache_lookup, if_pos rfl, ← gdt_fst, h]
  constructor
  · exact gdt_hit o b a _ v (by rw [cacheKey_comm b a]; exact hc)
  · exact gdt_hit o a b _ v hc

theorem C5_witness :
    ((get_drive_time (fun _ _ => some 5) "A" "B" initState).1 = some 5) ∧
    (get_drive_time (fun _ _ => some 5) "B" "A"
        (get_drive_time (fun _ _ => some 5) "A" "B" initState).2 =
      (some 5, (get_drive_time (fun _ _ => some 5) "A" "B" initState).2)) :=
  ⟨by decide, (C5_cache_symm_idem (fun _ _ => some 5) "A" "B" initState 5 (by decide)).1⟩

/-! ## C6 — cache lifetime -/

/-- C6 as stated is false on the code: `drive_time_cache = {}` is local to
each `assign_to_closest_rep` call, so the cache does not persist across
windows. In this run the only location pair ever queried is `("B","B")`
(the rep starts at the appointment zip and stays there); window 1
establishes its cost by a successful lookup, yet window 3 is empty and
window 2 still issues a second oracle call: the run makes 2 oracle calls
where the claim implies at most 1. -/
theorem C6_counterexample :
    ((main_workflow (fun _ _ => some 60) (fun _ => 0) (fun _ r => r)
        [⟨"1", .parsed 0, "B", "P", "d"⟩, ⟨"2", .parsed 7260, "B", "P", "d"⟩]
        [("R", ⟨"B", ["P"]⟩)]).calls = 2) ∧
    ((main_workflow (fun _ _ => some 60) (fun _ => 0) (fun _ r => r)
        [⟨"1", .parsed 0, "B", "P", "d"⟩, ⟨"2", .parsed 7260, "B", "P", "d"⟩]
        [("R", ⟨"B", ["P"]⟩)]).results.map
          (fun p => (p.1, p.2.assigned_to, p.2.appointment.Zip, p.2.drive_time)) =
      [(1, "R", "B", 60), (2, "R", "B", 60)]) := by
  refine ⟨by decide, by decide⟩

/-- C6, amended: the cache persists for the duration of one
`assign_to_closest_rep` call with no eviction — once a pair's cost is
cached by a successful lookup, any later query for that unordered pair in
the same call returns the cached value with no new oracle call and no state
change, and no `get_drive_time` call ever removes or overwrites an entry.
The cache is created empty afresh in each engine call, so a later window
may re-query the oracle for the same pair. -/
theorem C6_cache_persistence (o : String → String → Option ℚ) :
    (∀ z1 z2 s v, s.cache.lookup (cacheKey z1 z2) = some v →
      get_drive_time o z1 z2 s = (some v, s)) ∧
    (∀ z1 z2 s k w, s.cache.lookup k = some w →
      ((get_drive_time o z1 z2 s).2).cache.lookup k = some w) := by
  constructor
  · exact fun z1 z2 s v h => gdt_hit o z1 z2 s v h
  · intro z1 z2 s k w h
    rw [gdt_cache_lookup]
    by_cases hk : k = cacheKey z1 z2
    · rw [if_pos hk, h]; rfl
    · rw [if_neg hk, h]

theorem C6_witness :
    ((⟨[(cacheKey "A" "B", 7)], 1, []⟩ : EngineState).cache.lookup (cacheKey "A" "B")
        = some 7) ∧
    (get_drive_time (fun _ _ => none) "A" "B" ⟨[(cacheKey "A" "B", 7)], 1, []⟩ =
      (some 7, ⟨[(cacheKey "A" "B", 7)], 1, []⟩)) :=
  ⟨by decide,
    (C6_cache_persistence (fun _ _ => none)).1 "A" "B" ⟨[(cacheKey "A" "B", 7)], 1, []⟩ 7
      (by decide)⟩

/-! ## C9 — window partitioner -/

/-- C9: the window partitioner returns exactly the members of the input
collection whose date satisfies `start ≤ date ≤ end` (both endpoints
inclusive), and it is a sublist of the input, so relative order is
preserved. -/
theorem C9_window_partitioner (parse : String → Int) (t0 t1 : Int)
    (l : List Appointment) :
    List.Sublist (windowFilter parse t0 t1 l) l ∧
    ∀ a, a ∈ windowFilter parse t0 t1 l ↔
      (a ∈ l ∧ t0 ≤ dateOf parse a.apptdate ∧ dateOf parse a.apptdate ≤ t1) := by
  constructor
  · exact List.filter_sublist l
  · intro a
    simp [windowFilter, List.mem_filter, and_assoc]

/-! ## C8 — appointments are mutated only by date normalization -/

/-- C8 as stated is false on the code: lines 136–137 normalize `apptdate`
in place, so an appointment whose date is still the raw import string is
mutated (its `apptdate` field changes from the string to the parsed
timestamp) by a run of the engine. -/
theorem C8_counterexample :
    (assign_to_closest_rep (fun _ _ => some 60) (fun _ => 0)
        [⟨"1", .raw "12/20/2024 09:00:00", "B", "P", "d"⟩] [] 0 1).appointments ≠
      [⟨"1", .raw "12/20/2024 09:00:00", "B", "P", "d"⟩] := by
  decide

/-- C8, amended: the only mutation a run performs on the appointment
collection is the in-place date normalization of lines 136–137 — the
collection after a run is the pointwise `normalizeAppt` image; every field
except `apptdate` is untouched, an already-parsed date is left unchanged
(so the whole record is unchanged), and a raw string date is replaced by
its parsed timestamp. -/
theorem C8_no_mutation_except_dates (o : String → String → Option ℚ)
    (parse : String → Int) (appts : List Appointment) (ros : Roster) (t0 t1 : Int) :
    ((assign_to_closest_rep o parse appts ros t0 t1).appointments =
      appts.map (normalizeAppt parse)) ∧
    (∀ a, (normalizeAppt parse a).custnumber = a.custnumber ∧
      (normalizeAppt parse a).Zip = a.Zip ∧
      (normalizeAppt parse a).productid = a.productid ∧
      (normalizeAppt parse a).dsp_id = a.dsp_id) ∧
    (∀ t, normDate parse (DateVal.parsed t) = DateVal.parsed t) ∧
    (∀ s, normDate parse (DateVal.raw s) = DateVal.parsed (parse s)) ∧
    (∀ a, normalizeAppt parse a = { a with apptdate := normDate parse a.apptdate }) := by
  exact ⟨rfl, fun a => ⟨rfl, rfl, rfl, rfl⟩, fun t => rfl, fun s => rfl, fun a => rfl⟩

/-! ## Rep-selection loop lemmas -/

theorem considerRep_of_not_elig (o : String → String → Option ℚ) (z : String)
    (elig : String × RepDetails → Bool) (st : Option (String × ℚ) × EngineState)
    (p : String × RepDetails) (he : elig p = false) :
    considerRep o z elig st p = st := by
  unfold considerRep
  simp [he]

theorem considerRep_of_fail (o : String → String → Option ℚ) (z : String)
    (elig : String × RepDetails → Bool) (st : Option (String × ℚ) × EngineState)
    (p : String × RepDetails) (he : elig p = true)
    (hr : (get_drive_time o z p.2.curr_zip st.2).1 = none) :
    considerRep o z elig st p = (st.1, (get_drive_time o z p.2.curr_zip st.2).2) := by
  unfold considerRep
  simp [he, hr]

theorem considerRep_of_succ_none (o : String → String → Option ℚ) (z : String)
    (elig : String × RepDetails → Bool) (st : Option (String × ℚ) × EngineState)
    (p : String × RepDetails) (t : ℚ) (he : elig p = true)
    (hr : (get_drive_time o z p.2.curr_zip st.2).1 = some t) (hb : st.1 = none) :
    considerRep o z elig st p = (some (p.1, t), (get_drive_time o z p.2.curr_zip st.2).2) := by
  unfold considerRep
  simp [he, hr, hb]

theorem considerRep_of_succ_lt (o : String → String → Option ℚ) (z : String)
    (elig : String × RepDetails → Bool) (st : Option (String × ℚ) × EngineState)
    (p : String × RepDetails) (t : ℚ) (q : String × ℚ) (he : elig p = true)
    (hr : (get_drive_time o z p.2.curr_zip st.2).1 = some t) (hb : st.1 = some q)
    (hlt : t < q.2) :
    considerRep o z elig st p = (some (p.1, t), (get_drive_time o z p.2.curr_zip st.2).2) := by
  unfold considerRep
  simp [he, hr, hb, hlt]

theorem considerRep_of_succ_ge (o : String → String → Option ℚ) (z : String)
    (elig : String × RepDetails → Bool) (st : Option (String × ℚ) × EngineState)
    (p : String × RepDetails) (t : ℚ) (q : String × ℚ) (he : elig p = true)
    (hr : (get_drive_time o z p.2.curr_zip st.2).1 = some t) (hb : st.1 = some q)
    (hge : ¬ t < q.2) :
    considerRep o z elig st p = (some q, (get_drive_time o z p.2.curr_zip st.2).2) := by
  unfold considerRep
  simp [he, hr, hb, hge]

theorem considerRep_state (o : String → String → Option ℚ) (z : String)
    (elig : String × RepDetails → Bool) (st : Option (String × ℚ) × EngineState)
    (p : String × RepDetails) :
    (considerRep o z elig st p).2 = st.2 ∨
    (considerRep o z elig st p).2 = (get_drive_time o z p.2.curr_zip st.2).2 := by
  by_cases he : elig p = true
  · cases hr : (get_drive_time o z p.2.curr_zip st.2).1 with
    | none => rw [considerRep_of_fail o z elig st p he hr]; right; rfl
    | some t =>
      cases hb : st.1 with
      | none => rw [considerRep_of_succ_none o z elig st p t he hr hb]; right; rfl
      | some q =>
        by_cases hlt : t < q.2
        · rw [considerRep_of_succ_lt o z elig st p t q he hr hb hlt]; right; rfl
        · rw [considerRep_of_succ_ge o z elig st p t q he hr hb hlt]; right; rfl
  · rw [considerRep_of_not_elig o z elig st p (by simpa using he)]; left; rfl

/-- Running the selection fold never changes the answer `get_drive_time`
would give for a pair with the same origin zip. -/
theorem fold_state_stable (o : String → String → Option ℚ) (z : String)
    (elig : String × RepDetails → Bool) (roster : Roster) :
    ∀ (st : Option (String × ℚ) × EngineState) (z2 : String) (v : Option ℚ),
      (get_drive_time o z z2 st.2).1 = v →
      (get_drive_time o z z2 (roster.foldl (considerRep o z elig) st).2).1 = v := by
  induction roster with
  | nil => intro st z2 v h; exact h
  | cons p rest ih =>
    intro st z2 v h
    rw [List.foldl_cons]
    apply ih
    rcases considerRep_state o z elig st p with hs | hs
    · rw [hs]; exact h
    · rw [hs]; exact gdt_gdt_stable o z z2 p.2.curr_zip st.2 v h

/-- If the selection fold ends with no candidate, it started with none and
every eligible rep's drive-time lookup fails (also in the final state). -/
theorem fold_none (o : String → String → Option ℚ) (z : String)
    (elig : String × RepDetails → Bool) (roster : Roster) :
    ∀ (st : Option (String × ℚ) × EngineState),
      (roster.foldl (considerRep o z elig) st).1 = none →
      st.1 = none ∧ ∀ p ∈ roster, elig p = true →
        (get_drive_time o z p.2.curr_zip (roster.foldl (considerRep o z elig) st).2).1 = none := by
  induction roster with
  | nil =>
    intro st h
    exact ⟨h, by simp⟩
  | cons p rest ih =>
    intro st h
    rw [List.foldl_cons] at h ⊢
    by_cases he : elig p = true
    · cases hr : (get_drive_time o z p.2.curr_zip st.2).1 with
      | none =>
        rw [considerRep_of_fail o z elig st p he hr] at h ⊢
        rcases ih _ h with ⟨hb, hrest⟩
        refine ⟨hb, ?_⟩
        intro p' hp' he'
        rcases List.mem_cons.mp hp' with rfl | hp'
        · exact fold_state_stable o z elig rest _ _ none
            (gdt_gdt_stable o z p'.2.curr_zip p'.2.curr_zip st.2 none hr)
        · exact hrest p' hp' he'
      | some t =>
        exfalso
        cases hb : st.1 with
        | none =>
          rw [considerRep_of_succ_none o z elig st p t he hr hb] at h
          rcases ih _ h with ⟨hb', _⟩
          exact Option.noConfusion hb'
        | some q =>
          by_cases hlt : t < q.2
          · rw [considerRep_of_succ_lt o z elig st p t q he hr hb hlt] at h
            rcases ih _ h with ⟨hb', _⟩
            exact Option.noConfusion hb'
          · rw [considerRep_of_succ_ge o z elig st p t q he hr hb hlt] at h
            rcases ih _ h with ⟨hb', _⟩
            exact Option.noConfusion hb'
    · rw [considerRep_of_not_elig o z elig st p (by simpa using he)] at h ⊢
      rcases ih _ h with ⟨hb, hrest⟩
      refine ⟨hb, ?_⟩
      intro p' hp' he'
      rcases List.mem_cons.mp hp' with rfl | hp'
      · exact absurd he' (by simpa using he)
      · exact hrest p' hp' he'

/-- Minimality of the selection fold: the final candidate's drive time is at
most the initial candidate's, and at most every eligible rep's known drive
time (read in the final state). -/
theorem fold_min (o : String → String → Option ℚ) (z : String)
    (elig : String × RepDetails → Bool) (roster : Roster) :
    ∀ (st : Option (String × ℚ) × EngineState) (r' : String) (t' : ℚ),
      (roster.foldl (considerRep o z elig) st).1 = some (r', t') →
      (∀ q, st.1 = some q → t' ≤ q.2) ∧
      (∀ p ∈ roster, elig p = true →
        ∀ u, (get_drive_time o z p.2.curr_zip (roster.foldl (considerRep o z elig) st).2).1 = some u →
          t' ≤ u) := by
  induction roster with
  | nil =>
    intro st r' t' h
    simp only [List.foldl_nil] at h
    refine ⟨?_, by simp⟩
    intro q hq
    rw [h] at hq
    cases hq
    exact le_refl _
  | cons p rest ih =>
    intro st r' t' h
    rw [List.foldl_cons] at h ⊢
    by_cases he : elig p = true
    · cases hr : (get_drive_time o z p.2.curr_zip st.2).1 with
      | none =>
        rw [considerRep_of_fail o z elig st p he hr] at h ⊢
        rcases ih _ _ _ h with ⟨hA, hB⟩
        refine ⟨hA, ?_⟩
        intro p' hp' he' u hu
        rcases List.mem_cons.mp hp' with rfl | hp'
        · have hn : (get_drive_time o z p'.2.curr_zip
              (rest.foldl (considerRep o z elig) (st.1, (get_drive_time o z p'.2.curr_zip st.2).2)).2).1 = none :=
            fold_state_stable o z elig rest _ _ none
              (gdt_gdt_stable o z p'.2.curr_zip p'.2.curr_zip st.2 none hr)
          rw [hn] at hu
          exact Option.noConfusion hu
        · exact hB p' hp' he' u hu
      | some t =>
        have hstable : ∀ (st' : Option (String × ℚ) × EngineState),
            st'.2 = (get_drive_time o z p.2.curr_zip st.2).2 →
            (get_drive_time o z p.2.curr_zip (rest.foldl (considerRep o z elig) st').2).1 = some t := by
          intro st' hst'
          apply fold_state_stable o z elig rest
          rw [hst']
          exact gdt_gdt_stable o z p.2.curr_zip p.2.curr_zip st.2 (some t) hr
        cases hb : st.1 with
        | none =>
          rw [considerRep_of_succ_none o z elig st p t he hr hb] at h ⊢
          have ht : (get_drive_time o z p.2.curr_zip
              (rest.foldl (considerRep o z elig)
                (some (p.1, t), (get_drive_time o z p.2.curr_zip st.2).2)).2).1 = some t :=
            hstable (some (p.1, t), (get_drive_time o z p.2.curr_zip st.2).2) rfl
          rcases ih _ _ _ h with ⟨hA, hB⟩
          refine ⟨?_, ?_⟩
          · intro q hq
            exact Option.noConfusion hq
          · intro p' hp' he' u hu
            rcases List.mem_cons.mp hp' with rfl | hp'
            · rw [ht] at hu
              cases hu
              exact hA (p'.1, t) rfl
            · exact hB p' hp' he' u hu
        | some q0 =>
          by_cases hlt : t < q0.2
          · rw [considerRep_of_succ_lt o z elig st p t q0 he hr hb hlt] at h ⊢
            have ht : (get_drive_time o z p.2.curr_zip
                (rest.foldl (considerRep o z elig)
                  (some (p.1, t), (get_drive_time o z p.2.curr_zip st.2).2)).2).1 = some t :=
              hstable (some (p.1, t), (get_drive_time o z p.2.curr_zip st.2).2) rfl
            rcases ih _ _ _ h with ⟨hA, hB⟩
            refine ⟨?_, ?_⟩
            · intro q hq
              cases hq
              exact le_of_lt (lt_of_le_of_lt (hA (p.1, t) rfl) hlt)
            · intro p' hp' he' u hu
              rcases List.mem_cons.mp hp' with rfl | hp'
              · rw [ht] at hu
                cases hu
                exact hA (p'.1, t) rfl
              · exact hB p' hp' he' u hu
          · rw [considerRep_of_succ_ge o z elig st p t q0 he hr hb hlt] at h ⊢
            have ht : (get_drive_time o z p.2.curr_zip
                (rest.foldl (considerRep o z elig)
                  (some q0, (get_drive_time o z p.2.curr_zip st.2).2)).2).1 = some t :=
              hstable (some q0, (get_drive_time o z p.2.curr_zip st.2).2) rfl
            rcases ih _ _ _ h with ⟨hA, hB⟩
            refine ⟨?_, ?_⟩
            · intro q hq
              cases hq
              exact hA q0 rfl
            · intro p' hp' he' u hu
              rcases List.mem_cons.mp hp' with rfl | hp'
              · rw [ht] at hu
                cases hu
                exact le_trans (hA q0 rfl) (not_lt.mp hlt)
              · exact hB p' hp' he' u hu
    · rw [considerRep_of_not_elig o z elig st p (by simpa using he)] at h ⊢
      rcases ih _ _ _ h with ⟨hA, hB⟩
      refine ⟨hA, ?_⟩
      intro p' hp' he' u hu
      rcases List.mem_cons.mp hp' with rfl | hp'
      · exact absurd he' (by simpa using he)
      · exact hB p' hp' he' u hu

/-- Tie-breaking of the selection fold: the final candidate either is the
initial one, or sits at a roster position whose eligible predecessors all
have strictly larger known drive times (the code only replaces the current
best on a strict `<`). -/
theorem fold_first (o : String → String → Option ℚ) (z : String)
    (elig : String × RepDetails → Bool) (roster : Roster) :
    ∀ (st : Option (String × ℚ) × EngineState) (r' : String) (t' : ℚ),
      (roster.foldl (considerRep o z elig) st).1 = some (r', t') →
      (st.1 = some (r', t')) ∨
      ∃ l₁ p l₂, roster = l₁ ++ p :: l₂ ∧ p.1 = r' ∧ elig p = true ∧
        (get_drive_time o z p.2.curr_zip (roster.foldl (considerRep o z elig) st).2).1 = some t' ∧
        (∀ q, st.1 = some q → t' < q.2) ∧
        (∀ p' ∈ l₁, elig p' = true →
          ∀ u, (get_drive_time o z p'.2.curr_zip (roster.foldl (considerRep o z elig) st).2).1 = some u →
            t' < u) := by
  induction roster with
  | nil =>
    intro st r' t' h
    exact Or.inl h
  | cons p rest ih =>
    intro st r' t' h
    rw [List.foldl_cons] at h ⊢
    by_cases he : elig p = true
    · cases hr : (get_drive_time o z p.2.curr_zip st.2).1 with
      | none =>
        rw [considerRep_of_fail o z elig st p he hr] at h ⊢
        rcases ih _ _ _ h with hL | ⟨m₁, pw, m₂, hsplit, hname, helig, hlast, hq, hm⟩
        · exact Or.inl hL
        · refine Or.inr ⟨p :: m₁, pw, m₂, by rw [hsplit, List.cons_append], hname, helig, hlast, hq, ?_⟩
          intro p' hp' he' u hu
          rcases List.mem_cons.mp hp' with rfl | hp'
          · have : (get_drive_time o z p'.2.curr_zip
                (rest.foldl (considerRep o z elig) (st.1, (get_drive_time o z p'.2.curr_zip st.2).2)).2).1 = none :=
              fold_state_stable o z elig rest _ _ none
                (gdt_gdt_stable o z p'.2.curr_zip p'.2.curr_zip st.2 none hr)
            rw [this] at hu
            exact Option.noConfusion hu
          · exact hm p' hp' he' u hu
      | some t =>
        have hstable :
            (get_drive_time o z p.2.curr_zip
              (rest.foldl (considerRep o z elig)
                (considerRep o z elig st p)).2).1 = some t := by
          apply fold_state_stable o z elig rest
          rcases considerRep_state o z elig st p with hs | hs
          · rw [hs]; exact hr
          · rw [hs]; exact gdt_gdt_stable o z p.2.curr_zip p.2.curr_zip st.2 (some t) hr
        cases hb : st.1 with
        | none =>
          rw [considerRep_of_succ_none o z elig st p t he hr hb] at h ⊢
          have hstable' :
              (get_drive_time o z p.2.curr_zip
                (rest.foldl (considerRep o z elig)
                  (some (p.1, t), (get_drive_time o z p.2.curr_zip st.2).2)).2).1 = some t := by
            rw [← considerRep_of_succ_none o z elig st p t he hr hb]
            exact hstable
          rcases ih _ _ _ h with hL | ⟨m₁, pw, m₂, hsplit, hname, helig, hlast, hq, hm⟩
          · cases hL
            refine Or.inr ⟨[], p, rest, rfl, rfl, he, hstable', ?_, by simp⟩
            intro q hq
            exact Option.noConfusion hq
          · refine Or.inr ⟨p :: m₁, pw, m₂, by rw [hsplit, List.cons_append], hname, helig, hlast, ?_, ?_⟩
            · intro q hq
              exact Option.noConfusion hq
            · intro p' hp' he' u hu
              rcases List.mem_cons.mp hp' with rfl | hp'
              · rw [hstable'] at hu
                cases hu
                exact hq (p'.1, t) rfl
              · exact hm p' hp' he' u hu
        | some q0 =>
          by_cases hlt : t < q0.2
          · rw [considerRep_of_succ_lt o z elig st p t q0 he hr hb hlt] at h ⊢
            have hstable' :
                (get_drive_time o z p.2.curr_zip
                  (rest.foldl (considerRep o z elig)
                    (some (p.1, t), (get_drive_time o z p.2.curr_zip st.2).2)).2).1 = some t := by
              rw [← considerRep_of_succ_lt o z elig st p t q0 he hr hb hlt]
              exact hstable
            rcases ih _ _ _ h with hL | ⟨m₁, pw, m₂, hsplit, hname, helig, hlast, hq, hm⟩
            · cases hL
              refine Or.inr ⟨[], p, rest, rfl, rfl, he, hstable', ?_, by simp⟩
              intro q hq
              cases hq
              exact hlt
            · refine Or.inr ⟨p :: m₁, pw, m₂, by rw [hsplit, List.cons_append], hname, helig, hlast, ?_, ?_⟩
              · intro q hq2
                cases hq2
                exact lt_trans (hq (p.1, t) rfl) hlt
              · intro p' hp' he' u hu
                rcases List.mem_cons.mp hp' with rfl | hp'
                · rw [hstable'] at hu
                  cases hu
                  exact hq (p'.1, t) rfl
                · exact hm p' hp' he' u hu
          · rw [considerRep_of_succ_ge o z elig st p t q0 he hr hb hlt] at h ⊢
            have hstable' :
                (get_drive_time o z p.2.curr_zip
                  (rest.foldl (considerRep o z elig)
                    (some q0, (get_drive_time o z p.2.curr_zip st.2).2)).2).1 = some t := by
              rw [← considerRep_of_succ_ge o z elig st p t q0 he hr hb hlt]
              exact hstable
            rcases ih _ _ _ h with hL | ⟨m₁, pw, m₂, hsplit, hname, helig, hlast, hq, hm⟩
            · cases hL
              exact Or.inl rfl
            · refine Or.inr ⟨p :: m₁, pw, m₂, by rw [hsplit, List.cons_append], hname, helig, hlast, ?_, ?_⟩
              · intro q hq2
                cases hq2
                exact hq q0 rfl
              · intro p' hp' he' u hu
                rcases List.mem_cons.mp hp' with rfl | hp'
                · rw [hstable'] at hu
                  cases hu
                  exact lt_of_lt_of_le (hq q0 rfl) (not_lt.mp hlt)
                · exact hm p' hp' he' u hu
    · rw [considerRep_of_not_elig o z elig st p (by simpa using he)] at h ⊢
      rcases ih _ _ _ h with hL | ⟨m₁, pw, m₂, hsplit, hname, helig, hlast, hq, hm⟩
      · exact Or.inl hL
      · refine Or.inr ⟨p :: m₁, pw, m₂, by rw [hsplit, List.cons_append], hname, helig, hlast, hq, ?_⟩
        intro p' hp' he' u hu
        rcases List.mem_cons.mp hp' with rfl | hp'
        · exact absurd he' (by simpa using he)
        · exact hm p' hp' he' u hu

/-- A successful selection picks a rep from the roster that passed the
eligibility test, and its drive time is its own (successful) lookup. -/
theorem select_mem (o : String → String → Option ℚ) (z : String)
    (elig : String × RepDetails → Bool) (roster : Roster) (s : EngineState)
    (r' : String) (t' : ℚ)
    (h : (roster.foldl (considerRep o z elig) (none, s)).1 = some (r', t')) :
    ∃ d, (r', d) ∈ roster ∧ elig (r', d) = true := by
  rcases fold_first o z elig roster (none, s) r' t' h with hL | ⟨l₁, p, l₂, hsplit, hname, helig, _, _, _⟩
  · exact Option.noConfusion hL
  · refine ⟨p.2, ?_, ?_⟩
    · rw [hsplit]
      have : (r', p.2) = p := by
        rw [← hname]
      rw [this]
      exact List.mem_append.mpr (Or.inr (List.mem_cons_self p l₂))
    · have : (r', p.2) = p := by rw [← hname]
      rw [this]
      exact helig

theorem selectClosest_mem (o : String → String → Option ℚ) (z pid : String)
    (roster : Roster) (s : EngineState) (r' : String) (t' : ℚ)
    (h : (selectClosest o z pid roster s).1 = some (r', t')) :
    ∃ d, (r', d) ∈ roster ∧ pid ∈ d.scope := by
  rcases select_mem o z (eligScope pid) roster s r' t' h with ⟨d, hd, he⟩
  exact ⟨d, hd, by simpa [eligScope] using he⟩

theorem selectIdle_mem (o : String → String → Option ℚ) (z pid : String)
    (f : String → List Appointment) (roster : Roster) (s : EngineState)
    (r' : String) (t' : ℚ)
    (h : (selectIdle o z pid f roster s).1 = some (r', t')) :
    ∃ d, (r', d) ∈ roster ∧ pid ∈ d.scope ∧ f r' = [] := by
  rcases select_mem o z (eligIdle pid f) roster s r' t' h with ⟨d, hd, he⟩
  simp only [eligIdle, Bool.and_eq_true, decide_eq_true_eq, List.isEmpty_iff] at he
  exact ⟨d, hd, he.1, he.2⟩

/-! ## C3 — greedy minimality with first-wins tie-breaking -/

/-- C3: when the initial pass's selection loop for an appointment (zip `z`,
required capability `pid`) produces a candidate `(r', t')`, then (a) `t'` is
less than or equal to the drive time of every eligible rep whose lookup is
known (non-failed, read in the loop's final state), and (b) the chosen rep
occurs at a roster position such that every eligible earlier rep with a
known cost has a strictly larger cost — i.e. ties keep the first rep in
roster iteration order. -/
theorem C3_greedy_minimality (o : String → String → Option ℚ) (z pid : String)
    (roster : Roster) (s : EngineState) (r' : String) (t' : ℚ)
    (h : (selectClosest o z pid roster s).1 = some (r', t')) :
    (∀ p ∈ roster, pid ∈ p.2.scope →
      ∀ u, (get_drive_time o z p.2.curr_zip (selectClosest o z pid roster s).2).1 = some u →
        t' ≤ u) ∧
    (∃ l₁ p l₂, roster = l₁ ++ p :: l₂ ∧ p.1 = r' ∧ pid ∈ p.2.scope ∧
      (get_drive_time o z p.2.curr_zip (selectClosest o z pid roster s).2).1 = some t' ∧
      ∀ p' ∈ l₁, pid ∈ p'.2.scope →
        ∀ u, (get_drive_time o z p'.2.curr_zip (selectClosest o z pid roster s).2).1 = some u →
          t' < u) := by
  have h' : (roster.foldl (considerRep o z (eligScope pid)) (none, s)).1 = some (r', t') := h
  constructor
  · intro p hp hscope u hu
    exact (fold_min o z (eligScope pid) roster (none, s) r' t' h').2 p hp
      (by simpa [eligScope] using hscope) u hu
  · rcases fold_first o z (eligScope pid) roster (none, s) r' t' h' with hL | ⟨l₁, p, l₂, hsplit, hname, helig, hlast, _, hm⟩
    · exact Option.noConfusion hL
    · refine ⟨l₁, p, l₂, hsplit, hname, by simpa [eligScope] using helig, hlast, ?_⟩
      intro p' hp' hscope u hu
      exact hm p' hp' (by simpa [eligScope] using hscope) u hu

theorem C3_witness :
    ((selectClosest (fun _ _ => some 60) "A" "P"
        [("R1", ⟨"A", ["P"]⟩), ("R2", ⟨"A", ["P"]⟩)] initState).1 = some ("R1", 60)) ∧
    (∀ p ∈ ([("R1", ⟨"A", ["P"]⟩), ("R2", ⟨"A", ["P"]⟩)] : Roster), "P" ∈ p.2.scope →
      ∀ u, (get_drive_time (fun _ _ => some 60) "A" p.2.curr_zip
          (selectClosest (fun _ _ => some 60) "A" "P"
            [("R1", ⟨"A", ["P"]⟩), ("R2", ⟨"A", ["P"]⟩)] initState).2).1 = some u →
        (60 : ℚ) ≤ u) :=
  ⟨by decide,
    (C3_greedy_minimality (fun _ _ => some 60) "A" "P"
      [("R1", ⟨"A", ["P"]⟩), ("R2", ⟨"A", ["P"]⟩)] initState "R1" 60 (by decide)).1⟩

/-! ## Matching-pass lemmas -/

theorem fold_log_mono (o : String → String → Option ℚ) (z : String)
    (elig : String × RepDetails → Bool) (roster : Roster) :
    ∀ (st : Option (String × ℚ) × EngineState) (m : String), m ∈ st.2.log →
      m ∈ (roster.foldl (considerRep o z elig) st).2.log := by
  induction roster with
  | nil => intro st m h; exact h
  | cons p rest ih =>
    intro st m h
    rw [List.foldl_cons]
    apply ih
    rcases considerRep_state o z elig st p with hs | hs
    · rw [hs]; exact h
    · rw [hs]; exact gdt_log_mono o z p.2.curr_zip st.2 m h

/-- Case analysis of one initial-pass iteration. -/
theorem step1Go_cases (o : String → String → Option ℚ) (roster : Roster)
    (acc : PassState) (a : Appointment) :
    (∃ r t, (selectClosest o a.Zip a.productid roster acc.state).1 = some (r, t) ∧ r ≠ "" ∧
      step1Go o roster acc a = ⟨acc.assignments ++ [⟨a, r, t⟩],
        (fun n => if n = r then acc.repAppts n ++ [a] else acc.repAppts n),
        (selectClosest o a.Zip a.productid roster acc.state).2⟩) ∨
    (step1Go o roster acc a = ⟨acc.assignments, acc.repAppts,
      { (selectClosest o a.Zip a.productid roster acc.state).2 with
        log := (selectClosest o a.Zip a.productid roster acc.state).2.log ++ [noRepMsg a] }⟩) := by
  cases hsel : (selectClosest o a.Zip a.productid roster acc.state).1 with
  | none =>
    right
    simp [step1Go, hsel]
  | some q =>
    by_cases hq : q.1 = ""
    · right
      simp [step1Go, hsel, hq]
    · left
      exact ⟨q.1, q.2, by simp [hsel], hq, by simp [step1Go, hsel, hq]⟩

/-- Case analysis of one reassignment-pass iteration. -/
theorem step3Go_cases (o : String → String → Option ℚ) (roster : Roster)
    (acc : PassState) (a : Appointment) :
    (∃ r t, (selectIdle o a.Zip a.productid acc.repAppts roster acc.state).1 = some (r, t) ∧ r ≠ "" ∧
      step3Go o roster acc a = ⟨acc.assignments ++ [⟨a, r, t⟩],
        (fun n => if n = r then acc.repAppts n ++ [a] else acc.repAppts n),
        (selectIdle o a.Zip a.productid acc.repAppts roster acc.state).2⟩) ∨
    (step3Go o roster acc a = ⟨acc.assignments, acc.repAppts,
      { (selectIdle o a.Zip a.productid acc.repAppts roster acc.state).2 with
        log := (selectIdle o a.Zip a.productid acc.repAppts roster acc.state).2.log ++ [couldNotMsg a] }⟩) := by
  cases hsel : (selectIdle o a.Zip a.productid acc.repAppts roster acc.state).1 with
  | none =>
    right
    simp [step3Go, hsel]
  | some q =>
    by_cases hq : q.1 = ""
    · right
      simp [step3Go, hsel, hq]
    · left
      exact ⟨q.1, q.2, by simp [hsel], hq, by simp [step3Go, hsel, hq]⟩

theorem step1Go_asg_mono (o : String → String → Option ℚ) (roster : Roster)
    (acc : PassState) (a : Appointment) (x : Assignment)
    (h : x ∈ acc.assignments) : x ∈ (step1Go o roster acc a).assignments := by
  rcases step1Go_cases o roster acc a with ⟨r, t, _, _, heq⟩ | heq <;> rw [heq]
  · exact List.mem_append_left _ h
  · exact h

theorem step1Go_log_mono (o : String → String → Option ℚ) (roster : Roster)
    (acc : PassState) (a : Appointment) (m : String)
    (h : m ∈ acc.state.log) : m ∈ (step1Go o roster acc a).state.log := by
  have hsel : m ∈ (selectClosest o a.Zip a.productid roster acc.state).2.log :=
    fold_log_mono o a.Zip (eligScope a.productid) roster (none, acc.state) m h
  rcases step1Go_cases o roster acc a with ⟨r, t, _, _, heq⟩ | heq <;> rw [heq]
  · exact hsel
  · exact List.mem_append_left _ hsel

theorem step3Go_asg_mono (o : String → String → Option ℚ) (roster : Roster)
    (acc : PassState) (a : Appointment) (x : Assignment)
    (h : x ∈ acc.assignments) : x ∈ (step3Go o roster acc a).assignments := by
  rcases step3Go_cases o roster acc a with ⟨r, t, _, _, heq⟩ | heq <;> rw [heq]
  · exact List.mem_append_left _ h
  · exact h

theorem step3Go_log_mono (o : String → String → Option ℚ) (roster : Roster)
    (acc : PassState) (a : Appointment) (m : String)
    (h : m ∈ acc.state.log) : m ∈ (step3Go o roster acc a).state.log := by
  have hsel : m ∈ (selectIdle o a.Zip a.productid acc.repAppts roster acc.state).2.log :=
    fold_log_mono o a.Zip (eligIdle a.productid acc.repAppts) roster (none, acc.state) m h
  rcases step3Go_cases o roster acc a with ⟨r, t, _, _, heq⟩ | heq <;> rw [heq]
  · exact hsel
  · exact List.mem_append_left _ hsel

theorem step1_fold_asg_mono (o : String → String → Option ℚ) (roster : Roster) :
    ∀ (appts : List Appointment) (acc : PassState) (x : Assignment),
      x ∈ acc.assignments → x ∈ (appts.foldl (step1Go o roster) acc).assignments := by
  intro appts
  induction appts with
  | nil => intro acc x h; exact h
  | cons a rest ih =>
    intro acc x h
    rw [List.foldl_cons]
    exact ih _ x (step1Go_asg_mono o roster acc a x h)

theorem step1_fold_log_mono (o : String → String → Option ℚ) (roster : Roster) :
    ∀ (appts : List Appointment) (acc : PassState) (m : String),
      m ∈ acc.state.log → m ∈ (appts.foldl (step1Go o roster) acc).state.log := by
  intro appts
  induction appts with
  | nil => intro acc m h; exact h
  | cons a rest ih =>
    intro acc m h
    rw [List.foldl_cons]
    exact ih _ m (step1Go_log_mono o roster acc a m h)

theorem step3_fold_asg_mono (o : String → String → Option ℚ) (roster : Roster) :
    ∀ (unas : List Appointment) (acc : PassState) (x : Assignment),
      x ∈ acc.assignments → x ∈ (unas.foldl (step3Go o roster) acc).assignments := by
  intro unas
  induction unas with
  | nil => intro acc x h; exact h
  | cons a rest ih =>
    intro acc x h
    rw [List.foldl_cons]
    exact ih _ x (step3Go_asg_mono o roster acc a x h)

theorem step3_fold_log_mono (o : String → String → Option ℚ) (roster : Roster) :
    ∀ (unas : List Appointment) (acc : PassState) (m : String),
      m ∈ acc.state.log → m ∈ (unas.foldl (step3Go o roster) acc).state.log := by
  intro unas
  induction unas with
  | nil => intro acc m h; exact h
  | cons a rest ih =>
    intro acc m h
    rw [List.foldl_cons]
    exact ih _ m (step3Go_log_mono o roster acc a m h)

/-- Every appointment of the initial pass ends assigned or with the
"no eligible rep" diagnostic in the log. -/
theorem step1_assigned_or_logged (o : String → String → Option ℚ) (roster : Roster) :
    ∀ (appts : List Appointment) (acc : PassState) (a : Appointment), a ∈ appts →
      (∃ x ∈ (appts.foldl (step1Go o roster) acc).assignments, x.appointment = a) ∨
      noRepMsg a ∈ (appts.foldl (step1Go o roster) acc).state.log := by
  intro appts
  induction appts with
  | nil => intro acc a h; exact absurd h (List.not_mem_nil a)
  | cons b rest ih =>
    intro acc a h
    rw [List.foldl_cons]
    rcases List.mem_cons.mp h with rfl | h
    · rcases step1Go_cases o roster acc a with ⟨r, t, _, _, heq⟩ | heq
      · left
        refine ⟨⟨a, r, t⟩, ?_, rfl⟩
        apply step1_fold_asg_mono o roster rest _ _
        rw [heq]
        exact List.mem_append_right _ (List.mem_singleton.mpr rfl)
      · right
        apply step1_fold_log_mono o roster rest _ _
        rw [heq]
        exact List.mem_append_right _ (List.mem_singleton.mpr rfl)
    · exact ih _ a h

/-- Every appointment of the reassignment pass ends assigned or with the
"could not assign" diagnostic in the log. -/
theorem step3_assigned_or_logged (o : String → String → Option ℚ) (roster : Roster) :
    ∀ (unas : List Appointment) (acc : PassState) (a : Appointment), a ∈ unas →
      (∃ x ∈ (unas.foldl (step3Go o roster) acc).assignments, x.appointment = a) ∨
      couldNotMsg a ∈ (unas.foldl (step3Go o roster) acc).state.log := by
  intro unas
  induction unas with
  | nil => intro acc a h; exact absurd h (List.not_mem_nil a)
  | cons b rest ih =>
    intro acc a h
    rw [List.foldl_cons]
    rcases List.mem_cons.mp h with rfl | h
    · rcases step3Go_cases o roster acc a with ⟨r, t, _, _, heq⟩ | heq
      · left
        refine ⟨⟨a, r, t⟩, ?_, rfl⟩
        apply step3_fold_asg_mono o roster rest _ _
        rw [heq]
        exact List.mem_append_right _ (List.mem_singleton.mpr rfl)
      · right
        apply step3_fold_log_mono o roster rest _ _
        rw [heq]
        exact List.mem_append_right _ (List.mem_singleton.mpr rfl)
    · exact ih _ a h

/-- The `rep_appointments` dictionary always holds, for each rep name, the
appointments currently assigned to that rep, in order. -/
theorem step1_f_filter (o : String → String → Option ℚ) (roster : Roster) :
    ∀ (appts : List Appointment) (acc : PassState),
      (∀ n, acc.repAppts n =
        (acc.assignments.filter (fun x => x.assigned_to == n)).map (fun x => x.appointment)) →
      ∀ n, (appts.foldl (step1Go o roster) acc).repAppts n =
        ((appts.foldl (step1Go o roster) acc).assignments.filter
          (fun x => x.assigned_to == n)).map (fun x => x.appointment) := by
  intro appts
  induction appts with
  | nil => intro acc hf n; exact hf n
  | cons a rest ih =>
    intro acc hf n
    rw [List.foldl_cons]
    apply ih
    intro n'
    rcases step1Go_cases o roster acc a with ⟨r, t, _, _, heq⟩ | heq <;> rw [heq]
    · by_cases hn : n' = r
      · subst hn
        simp [List.filter_append, hf n', List.filter_cons]
      · have hr : (r == n') = false := by
          exact beq_eq_false_iff_ne.mpr (fun hh => hn hh.symm)
        simp [List.filter_append, hf n', hn, List.filter_cons, hr]
    · exact hf n'

/-- Every assignment the initial pass produces names an eligible rep of the
roster. -/
theorem step1_elig (o : String → String → Option ℚ) (roster : Roster) :
    ∀ (appts : List Appointment) (acc : PassState),
      (∀ x ∈ acc.assignments, ∃ d, (x.assigned_to, d) ∈ roster ∧
        x.appointment.productid ∈ d.scope) →
      ∀ x ∈ (appts.foldl (step1Go o roster) acc).assignments,
        ∃ d, (x.assigned_to, d) ∈ roster ∧ x.appointment.productid ∈ d.scope := by
  intro appts
  induction appts with
  | nil => intro acc he; exact he
  | cons a rest ih =>
    intro acc he
    rw [List.foldl_cons]
    apply ih
    intro x hx
    rcases step1Go_cases o roster acc a with ⟨r, t, hsel, _, heq⟩ | heq
    · rw [heq] at hx
      rcases List.mem_append.mp hx with hx | hx
      · exact he x hx
      · rcases List.mem_singleton.mp hx with rfl
        rcases selectClosest_mem o a.Zip a.productid roster acc.state r t hsel with ⟨d, hd, hs⟩
        exact ⟨d, hd, hs⟩
    · rw [heq] at hx
      exact he x hx

/-- Every assignment the reassignment pass produces names an eligible rep of
the roster. -/
theorem step3_elig (o : String → String → Option ℚ) (roster : Roster) :
    ∀ (unas : List Appointment) (acc : PassState),
      (∀ x ∈ acc.assignments, ∃ d, (x.assigned_to, d) ∈ roster ∧
        x.appointment.productid ∈ d.scope) →
      ∀ x ∈ (unas.foldl (step3Go o roster) acc).assignments,
        ∃ d, (x.assigned_to, d) ∈ roster ∧ x.appointment.productid ∈ d.scope := by
  intro unas
  induction unas with
  | nil => intro acc he; exact he
  | cons a rest ih =>
    intro acc he
    rw [List.foldl_cons]
    apply ih
    intro x hx
    rcases step3Go_cases o roster acc a with ⟨r, t, hsel, _, heq⟩ | heq
    · rw [heq] at hx
      rcases List.mem_append.mp hx with hx | hx
      · exact he x hx
      · rcases List.mem_singleton.mp hx with rfl
        rcases selectIdle_mem o a.Zip a.productid acc.repAppts roster acc.state r t hsel with ⟨d, hd, hs, _⟩
        exact ⟨d, hd, hs⟩
    · rw [heq] at hx
      exact he x hx

/-- The appointments of the initial pass's candidate list form a sublist of
the processed appointment list (each appointment yields at most one
candidate, in order). -/
theorem step1_appts_sublist (o : String → String → Option ℚ) (roster : Roster) :
    ∀ (appts : List Appointment) (acc : PassState),
      List.Sublist ((appts.foldl (step1Go o roster) acc).assignments.map (fun x => x.appointment))
        (acc.assignments.map (fun x => x.appointment) ++ appts) := by
  intro appts
  induction appts with
  | nil =>
    intro acc
    simp
  | cons a rest ih =>
    intro acc
    rw [List.foldl_cons]
    rcases step1Go_cases o roster acc a with ⟨r, t, _, _, heq⟩ | heq <;> rw [heq]
    · have h := ih ⟨acc.assignments ++ [⟨a, r, t⟩],
        (fun n => if n = r then acc.repAppts n ++ [a] else acc.repAppts n),
        (selectClosest o a.Zip a.productid roster acc.state).2⟩
      simpa [List.append_assoc] using h
    · have h := ih ⟨acc.assignments, acc.repAppts,
        { (selectClosest o a.Zip a.productid roster acc.state).2 with
          log := (selectClosest o a.Zip a.productid roster acc.state).2.log ++ [noRepMsg a] }⟩
      exact h.trans (List.Sublist.append_left (List.sublist_cons_self a rest) _)

/-- Assignments produced by the reassignment pass either were already
present or assign one of the processed (unassigned) appointments. -/
theorem step3_appts_sub (o : String → String → Option ℚ) (roster : Roster) :
    ∀ (unas : List Appointment) (acc : PassState) (x : Assignment),
      x ∈ (unas.foldl (step3Go o roster) acc).assignments →
      x ∈ acc.assignments ∨ x.appointment ∈ unas := by
  intro unas
  induction unas with
  | nil => intro acc x h; exact Or.inl h
  | cons a rest ih =>
    intro acc x h
    rw [List.foldl_cons] at h
    rcases step3Go_cases o roster acc a with ⟨r, t, _, _, heq⟩ | heq <;> rw [heq] at h
    · rcases ih _ x h with hx | hx
      · rcases List.mem_append.mp hx with hx | hx
        · exact Or.inl hx
        · rcases List.mem_singleton.mp hx with rfl
          exact Or.inr (List.mem_cons_self a rest)
      · exact Or.inr (List.mem_cons_of_mem a hx)
    · rcases ih _ x h with hx | hx
      · exact Or.inl hx
      · exact Or.inr (List.mem_cons_of_mem a hx)

/-! ## Conflict-resolver lemmas -/

theorem resolveOne_cases (f : String → List Appointment)
    (st : List Assignment × List Appointment) (p : String × RepDetails) :
    (¬ (f p.1).length > 1 ∧ resolveOne f st p = st) ∨
    ((f p.1).length > 1 ∧
      (st.1.filter fun x => x.assigned_to == p.1).insertionSort
        (fun x y => x.drive_time ≤ y.drive_time) = [] ∧ resolveOne f st p = st) ∨
    (∃ kept extras, (f p.1).length > 1 ∧
      (st.1.filter fun x => x.assigned_to == p.1).insertionSort
        (fun x y => x.drive_time ≤ y.drive_time) = kept :: extras ∧
      resolveOne f st p =
        (extras.foldl (fun l e => l.erase e) st.1, st.2 ++ extras.map (·.appointment))) := by
  by_cases hg : (f p.1).length > 1
  · cases hs : (st.1.filter fun x => x.assigned_to == p.1).insertionSort
        (fun x y => x.drive_time ≤ y.drive_time) with
    | nil =>
      refine Or.inr (Or.inl ⟨hg, rfl, ?_⟩)
      unfold resolveOne
      rw [if_pos hg, hs]
    | cons kept extras =>
      refine Or.inr (Or.inr ⟨kept, extras, hg, rfl, ?_⟩)
      unfold resolveOne
      rw [if_pos hg, hs]
  · refine Or.inl ⟨hg, ?_⟩
    unfold resolveOne
    rw [if_neg hg]

theorem mem_erase_or {α : Type} [DecidableEq α] (l : List α) (x e : α) (h : x ∈ l) :
    x ∈ l.erase e ∨ x = e := by
  by_cases hx : x = e
  · exact Or.inr hx
  · exact Or.inl ((List.mem_erase_of_ne hx).mpr h)

theorem erase_fold_sublist {α : Type} [DecidableEq α] :
    ∀ (extras l : List α), List.Sublist (extras.foldl (fun l e => l.erase e) l) l := by
  intro extras
  induction extras with
  | nil => intro l; exact List.Sublist.refl l
  | cons e es ih =>
    intro l
    rw [List.foldl_cons]
    exact (ih (l.erase e)).trans (List.erase_sublist e l)

theorem erase_fold_mem_or {α : Type} [DecidableEq α] :
    ∀ (extras l : List α) (x : α), x ∈ l →
      x ∈ extras.foldl (fun l e => l.erase e) l ∨ x ∈ extras := by
  intro extras
  induction extras with
  | nil => intro l x h; exact Or.inl h
  | cons e es ih =>
    intro l x h
    rw [List.foldl_cons]
    rcases mem_erase_or l x e h with h' | rfl
    · rcases ih (l.erase e) x h' with h'' | h''
      · exact Or.inl h''
      · exact Or.inr (List.mem_cons_of_mem e h'')
    · exact Or.inr (List.mem_cons_self x es)

theorem erase_fold_perm {α : Type} [DecidableEq α] :
    ∀ (extras l : List α), extras.Nodup → (∀ e ∈ extras, e ∈ l) →
      List.Perm l ((extras.foldl (fun l e => l.erase e) l) ++ extras) := by
  intro extras
  induction extras with
  | nil =>
    intro l _ _
    simp
  | cons e es ih =>
    intro l hnd hmem
    rw [List.foldl_cons]
    have h1 : List.Perm l (e :: l.erase e) :=
      List.perm_cons_erase (hmem e (List.mem_cons_self e es))
    have h2 : List.Perm (l.erase e) ((es.foldl (fun l e => l.erase e) (l.erase e)) ++ es) := by
      apply ih (l.erase e) hnd.of_cons
      intro e' he'
      have hne : e' ≠ e := by
        intro hc
        subst hc
        exact (List.nodup_cons.mp hnd).1 he'
      exact (List.mem_erase_of_ne hne).mpr (hmem e' (List.mem_cons_of_mem e he'))
    exact h1.trans ((h2.cons e).trans List.perm_middle.symm)

theorem resolveOne_sublist (f : String → List Appointment)
    (st : List Assignment × List Appointment) (p : String × RepDetails) :
    List.Sublist (resolveOne f st p).1 st.1 := by
  rcases resolveOne_cases f st p with ⟨_, heq⟩ | ⟨_, _, heq⟩ | ⟨kept, extras, _, _, heq⟩
  · rw [heq]
  · rw [heq]
  · rw [heq]
    exact erase_fold_sublist extras st.1

theorem resolve_fold_sublist (f : String → List Appointment) :
    ∀ (l : List (String × RepDetails)) (st : List Assignment × List Appointment),
      List.Sublist (l.foldl (resolveOne f) st).1 st.1 := by
  intro l
  induction l with
  | nil => intro st; exact List.Sublist.refl _
  | cons p rest ih =>
    intro st
    rw [List.foldl_cons]
    exact (ih (resolveOne f st p)).trans (resolveOne_sublist f st p)

theorem resolveOne_un_mono (f : String → List Appointment)
    (st : List Assignment × List Appointment) (p : String × RepDetails)
    (m : Appointment) (h : m ∈ st.2) : m ∈ (resolveOne f st p).2 := by
  rcases resolveOne_cases f st p with ⟨_, heq⟩ | ⟨_, _, heq⟩ | ⟨kept, extras, _, _, heq⟩ <;> rw [heq]
  · exact h
  · exact h
  · exact List.mem_append_left _ h

theorem resolve_fold_un_mono (f : String → List Appointment) :
    ∀ (l : List (String × RepDetails)) (st : List Assignment × List Appointment)
      (m : Appointment), m ∈ st.2 → m ∈ (l.foldl (resolveOne f) st).2 := by
  intro l
  induction l with
  | nil => intro st m h; exact h
  | cons p rest ih =>
    intro st m h
    rw [List.foldl_cons]
    exact ih _ m (resolveOne_un_mono f st p m h)

theorem sorted_mem_filter (asgs : List Assignment) (n : String) (y : Assignment)
    (hy : y ∈ (asgs.filter fun x => x.assigned_to == n).insertionSort
      (fun x y => x.drive_time ≤ y.drive_time)) :
    y ∈ asgs ∧ y.assigned_to = n := by
  have hy' : y ∈ asgs.filter fun x => x.assigned_to == n :=
    (List.perm_insertionSort (fun x y => x.drive_time ≤ y.drive_time) _).mem_iff.mp hy
  rcases List.mem_filter.mp hy' with ⟨h1, h2⟩
  exact ⟨h1, by simpa using h2⟩

/-- Every assignment survives conflict resolution or has its appointment
collected as unassigned. -/
theorem resolve_fold_mem_or (f : String → List Appointment) :
    ∀ (l : List (String × RepDetails)) (st : List Assignment × List Appointment)
      (x : Assignment), x ∈ st.1 →
      x ∈ (l.foldl (resolveOne f) st).1 ∨ x.appointment ∈ (l.foldl (resolveOne f) st).2 := by
  intro l
  induction l with
  | nil => intro st x h; exact Or.inl h
  | cons p rest ih =>
    intro st x h
    rw [List.foldl_cons]
    rcases resolveOne_cases f st p with ⟨_, heq⟩ | ⟨_, _, heq⟩ | ⟨kept, extras, _, hs, heq⟩
    · rw [heq]; exact ih st x h
    · rw [heq]; exact ih st x h
    · rw [heq]
      rcases erase_fold_mem_or extras st.1 x h with h' | h'
      · exact ih _ x h'
      · refine Or.inr (resolve_fold_un_mono f rest _ _ ?_)
        exact List.mem_append_right _ (List.mem_map_of_mem (·.appointment) h')

/-- Every unassigned appointment collected by conflict resolution is the
appointment of one of the incoming candidate assignments. -/
theorem resolve_fold_un_sub (f : String → List Appointment) :
    ∀ (l : List (String × RepDetails)) (st : List Assignment × List Appointment)
      (y : Appointment), y ∈ (l.foldl (resolveOne f) st).2 →
      y ∈ st.2 ∨ y ∈ st.1.map (fun x => x.appointment) := by
  intro l
  induction l with
  | nil => intro st y h; exact Or.inl h
  | cons p rest ih =>
    intro st y h
    rw [List.foldl_cons] at h
    rcases ih _ y h with h' | h'
    · rcases resolveOne_cases f st p with ⟨_, heq⟩ | ⟨_, _, heq⟩ | ⟨kept, extras, _, hs, heq⟩ <;>
        rw [heq] at h'
      · exact Or.inl h'
      · exact Or.inl h'
      · rcases List.mem_append.mp h' with h'' | h''
        · exact Or.inl h''
        · rcases List.mem_map.mp h'' with ⟨e, he, rfl⟩
          have : e ∈ st.1 := (sorted_mem_filter st.1 p.1 e (by rw [hs]; exact List.mem_cons_of_mem kept he)).1
          exact Or.inr (List.mem_map_of_mem _ this)
    · have hsub : List.Sublist ((resolveOne f st p).1.map (fun x => x.appointment))
          (st.1.map (fun x => x.appointment)) := (resolveOne_sublist f st p).map _
      exact Or.inr (hsub.mem h')

theorem filter_erase_of_neg (p : Assignment → Bool) :
    ∀ (l : List Assignment) (e : Assignment), p e = false →
      (l.erase e).filter p = l.filter p := by
  intro l
  induction l with
  | nil => intro e _; rfl
  | cons x xs ih =>
    intro e hpe
    rw [List.erase_cons]
    by_cases hxe : x = e
    · subst hxe
      rw [if_pos (by simp)]
      rw [List.filter_cons, hpe]
      simp
    · rw [if_neg (by simpa using hxe)]
      rw [List.filter_cons, List.filter_cons]
      cases hpx : p x with
      | true => simp only [cond_true, ih e hpe]
      | false => simp only [cond_false, ih e hpe]

theorem erase_fold_filter (p : Assignment → Bool) :
    ∀ (extras l : List Assignment), (∀ e ∈ extras, p e = false) →
      (extras.foldl (fun l e => l.erase e) l).filter p = l.filter p := by
  intro extras
  induction extras with
  | nil => intro l _; rfl
  | cons e es ih =>
    intro l hp
    rw [List.foldl_cons]
    rw [ih (l.erase e) fun e' he' => hp e' (List.mem_cons_of_mem e he')]
    exact filter_erase_of_neg p l e (hp e (List.mem_cons_self e es))

theorem resolveOne_count_ne (f : String → List Appointment)
    (st : List Assignment × List Appointment) (p : String × RepDetails)
    (n : String) (hn : n ≠ p.1) :
    (resolveOne f st p).1.countP (fun x => x.assigned_to == n) =
      st.1.countP (fun x => x.assigned_to == n) := by
  rcases resolveOne_cases f st p with ⟨_, heq⟩ | ⟨_, _, heq⟩ | ⟨kept, extras, _, hs, heq⟩ <;> rw [heq]
  rw [List.countP_eq_length_filter, List.countP_eq_length_filter]
  rw [erase_fold_filter _ extras st.1]
  intro e he
  have : e.assigned_to = p.1 :=
    (sorted_mem_filter st.1 p.1 e (by rw [hs]; exact List.mem_cons_of_mem kept he)).2
  rw [this]
  exact beq_eq_false_iff_ne.mpr (fun hc => hn hc.symm)

theorem resolve_fold_count_ne (f : String → List Appointment) (n : String) :
    ∀ (l : List (String × RepDetails)) (st : List Assignment × List Appointment),
      (∀ p' ∈ l, p'.1 ≠ n) →
      (l.foldl (resolveOne f) st).1.countP (fun x => x.assigned_to == n) =
        st.1.countP (fun x => x.assigned_to == n) := by
  intro l
  induction l with
  | nil => intro st _; rfl
  | cons p rest ih =>
    intro st hl
    rw [List.foldl_cons]
    rw [ih _ fun p' hp' => hl p' (List.mem_cons_of_mem p hp')]
    exact resolveOne_count_ne f st p n
      (fun hc => hl p (List.mem_cons_self p rest) hc.symm)

theorem resolveOne_count_self (f : String → List Appointment)
    (st : List Assignment × List Appointment) (p : String × RepDetails)
    (hnd : st.1.Nodup)
    (hlen : st.1.countP (fun x => x.assigned_to == p.1) = (f p.1).length) :
    (resolveOne f st p).1.countP (fun x => x.assigned_to == p.1) ≤ 1 := by
  rcases resolveOne_cases f st p with ⟨hg, heq⟩ | ⟨_, hs, heq⟩ | ⟨kept, extras, _, hs, heq⟩ <;> rw [heq]
  · rw [hlen]
    omega
  · rw [List.countP_eq_length_filter, ← (List.perm_insertionSort
      (fun x y => x.drive_time ≤ y.drive_time)
      (st.1.filter fun x => x.assigned_to == p.1)).length_eq, hs]
    simp
  · show (extras.foldl (fun l e => l.erase e) st.1).countP (fun x => x.assigned_to == p.1) ≤ 1
    have hextras_nd : extras.Nodup := by
      have h1 : (st.1.filter fun x => x.assigned_to == p.1).Nodup := hnd.filter _
      have h2 : (kept :: extras).Nodup := by
        rw [← hs]
        exact (List.perm_insertionSort (fun x y => x.drive_time ≤ y.drive_time) _).symm.nodup h1
      exact h2.of_cons
    have hextras_mem : ∀ e ∈ extras, e ∈ st.1 := fun e he =>
      (sorted_mem_filter st.1 p.1 e (by rw [hs]; exact List.mem_cons_of_mem kept he)).1
    have hperm := erase_fold_perm extras st.1 hextras_nd hextras_mem
    have hcount : st.1.countP (fun x => x.assigned_to == p.1) =
        (extras.foldl (fun l e => l.erase e) st.1).countP (fun x => x.assigned_to == p.1) +
          extras.countP (fun x => x.assigned_to == p.1) := by
      rw [hperm.countP_eq]
      exact List.countP_append _ _ _
    have hextras_all : extras.countP (fun x => x.assigned_to == p.1) = extras.length := by
      rw [List.countP_eq_length]
      intro e he
      have : e.assigned_to = p.1 :=
        (sorted_mem_filter st.1 p.1 e (by rw [hs]; exact List.mem_cons_of_mem kept he)).2
      simp [this]
    have htotal : st.1.countP (fun x => x.assigned_to == p.1) = extras.length + 1 := by
      rw [List.countP_eq_length_filter, ← (List.perm_insertionSort
        (fun x y => x.drive_time ≤ y.drive_time)
        (st.1.filter fun x => x.assigned_to == p.1)).length_eq, hs]
      simp [Nat.add_comm]
    omega

theorem countP_eq_zero_of_not_cover (asgs : List Assignment) (roster : Roster)
    (hcover : ∀ x ∈ asgs, ∃ d, (x.assigned_to, d) ∈ roster) (n : String)
    (hn : n ∉ roster.map Prod.fst) :
    asgs.countP (fun x => x.assigned_to == n) = 0 := by
  by_contra hc
  have hpos : 0 < asgs.countP (fun x => x.assigned_to == n) := Nat.pos_of_ne_zero hc
  rcases List.countP_pos_iff.mp hpos with ⟨x, hx, hpx⟩
  have hxn : x.assigned_to = n := by simpa using hpx
  rcases hcover x hx with ⟨d, hd⟩
  exact hn (by
    rw [← hxn]
    exact List.mem_map_of_mem Prod.fst hd)

/-- After conflict resolution, each rep name holds at most one assignment. -/
theorem resolve_count (roster : Roster) (f : String → List Appointment)
    (asgs : List Assignment) (hnd : asgs.Nodup)
    (hflen : ∀ r, (f r).length = asgs.countP (fun x => x.assigned_to == r))
    (hcover : ∀ x ∈ asgs, ∃ d, (x.assigned_to, d) ∈ roster)
    (hkeys : (roster.map Prod.fst).Nodup) (n : String) :
    (resolveConflicts roster f asgs).1.countP (fun x => x.assigned_to == n) ≤ 1 := by
  by_cases hn : n ∈ roster.map Prod.fst
  · rcases List.mem_map.mp hn with ⟨pn, hpn, hpn1⟩
    rcases List.append_of_mem hpn with ⟨pre, suf, rfl⟩
    have hkeys' := hkeys
    rw [List.map_append, List.map_cons] at hkeys'
    have hpre : ∀ p' ∈ pre, p'.1 ≠ n := by
      intro p' hp' hc
      have h1 : pn.1 ∈ pre.map Prod.fst := by
        rw [hpn1, ← hc]
        exact List.mem_map_of_mem Prod.fst hp'
      exact (List.disjoint_of_nodup_append hkeys') h1 (List.mem_cons_self _ _)
    have hsuf : ∀ p' ∈ suf, p'.1 ≠ n := by
      intro p' hp' hc
      have h2 := (List.nodup_append.mp hkeys').2.1
      rw [List.nodup_cons] at h2
      exact h2.1 (by rw [hpn1, ← hc]; exact List.mem_map_of_mem Prod.fst hp')
    unfold resolveConflicts
    rw [List.foldl_append, List.foldl_cons]
    rw [resolve_fold_count_ne f n suf _ hsuf]
    set st_pre := pre.foldl (resolveOne f) (asgs, []) with hst
    have hnd_pre : st_pre.1.Nodup := (resolve_fold_sublist f pre (asgs, [])).nodup hnd
    have hcnt_pre : st_pre.1.countP (fun x => x.assigned_to == n) =
        asgs.countP (fun x => x.assigned_to == n) := resolve_fold_count_ne f n pre _ hpre
    have hres := resolveOne_count_self f st_pre pn hnd_pre (by
      rw [hpn1, hcnt_pre, hflen n])
    rw [hpn1] at hres
    exact hres
  · have h0 : asgs.countP (fun x => x.assigned_to == n) = 0 :=
      countP_eq_zero_of_not_cover asgs roster hcover n hn
    have hsub := ((resolve_fold_sublist f roster (asgs, [])).countP_le (fun x => x.assigned_to == n))
    have h0' : ((asgs, ([] : List Appointment)).1).countP (fun x => x.assigned_to == n) = 0 := h0
    unfold resolveConflicts
    omega

/-- Conflict resolution only moves appointments from the kept list to the
unassigned list: together they are a permutation of the incoming
candidates' appointments. -/
theorem resolveOne_perm (f : String → List Appointment)
    (st : List Assignment × List Appointment) (p : String × RepDetails)
    (hnd : st.1.Nodup) :
    List.Perm (st.1.map (fun x => x.appointment) ++ st.2)
      ((resolveOne f st p).1.map (fun x => x.appointment) ++ (resolveOne f st p).2) := by
  rcases resolveOne_cases f st p with ⟨_, heq⟩ | ⟨_, _, heq⟩ | ⟨kept, extras, _, hs, heq⟩
  · rw [heq]
  · rw [heq]
  · rw [heq]
    show List.Perm (st.1.map (fun x => x.appointment) ++ st.2)
      ((extras.foldl (fun l e => l.erase e) st.1).map (fun x => x.appointment) ++
        (st.2 ++ extras.map (fun x => x.appointment)))
    have hextras_nd : extras.Nodup := by
      have h1 : (st.1.filter fun x => x.assigned_to == p.1).Nodup := hnd.filter _
      have h2 : (kept :: extras).Nodup := by
        rw [← hs]
        exact (List.perm_insertionSort (fun x y => x.drive_time ≤ y.drive_time) _).symm.nodup h1
      exact h2.of_cons
    have hextras_mem : ∀ e ∈ extras, e ∈ st.1 := fun e he =>
      (sorted_mem_filter st.1 p.1 e (by rw [hs]; exact List.mem_cons_of_mem kept he)).1
    have hperm := (erase_fold_perm extras st.1 hextras_nd hextras_mem).map (fun x => x.appointment)
    rw [List.map_append] at hperm
    refine (hperm.append_right st.2).trans ?_
    rw [List.append_assoc]
    exact List.Perm.append_left _ List.perm_append_comm

theorem resolve_fold_perm (f : String → List Appointment) :
    ∀ (l : List (String × RepDetails)) (st : List Assignment × List Appointment),
      st.1.Nodup →
      List.Perm (st.1.map (fun x => x.appointment) ++ st.2)
        ((l.foldl (resolveOne f) st).1.map (fun x => x.appointment) ++
          (l.foldl (resolveOne f) st).2) := by
  intro l
  induction l with
  | nil => intro st _; exact List.Perm.refl _
  | cons p rest ih =>
    intro st hnd
    rw [List.foldl_cons]
    exact (resolveOne_perm f st p hnd).trans
      (ih _ ((resolveOne_sublist f st p).nodup hnd))

/-! ## Reassignment-pass invariants -/

/-- The reassignment pass keeps at most one assignment per rep: it only
assigns reps that are idle (`rep_appointments[rep]` empty) and marks them
busy immediately. -/
theorem reassign_count (o : String → String → Option ℚ) (roster : Roster) :
    ∀ (unas : List Appointment) (acc : PassState),
      (∀ n, acc.assignments.countP (fun x => x.assigned_to == n) ≤ 1) →
      (∀ n, acc.repAppts n = [] → acc.assignments.countP (fun x => x.assigned_to == n) = 0) →
      ∀ n, (unas.foldl (step3Go o roster) acc).assignments.countP (fun x => x.assigned_to == n) ≤ 1 := by
  intro unas
  induction unas with
  | nil => intro acc hcnt _ n; exact hcnt n
  | cons a rest ih =>
    intro acc hcnt hidle n
    rw [List.foldl_cons]
    rcases step3Go_cases o roster acc a with ⟨r, t, hsel, _, heq⟩ | heq <;> rw [heq]
    · rcases selectIdle_mem o a.Zip a.productid acc.repAppts roster acc.state r t hsel with
        ⟨d, _, _, hfr⟩
      apply ih
      · intro n'
        rw [List.countP_append]
        by_cases hn' : n' = r
        · subst hn'
          have h0 := hidle n' hfr
          rw [h0]
          simp
        · have hrn : (r == n') = false := beq_eq_false_iff_ne.mpr fun hc => hn' hc.symm
          simp only [List.countP_cons, List.countP_nil]
          simp [hrn]
          exact hcnt n'
      · intro n' hn'
        by_cases hnr : n' = r
        · subst hnr
          simp at hn'
        · simp only [if_neg hnr] at hn'
          rw [List.countP_append]
          have h0 := hidle n' hn'
          have hrn : (r == n') = false := beq_eq_false_iff_ne.mpr fun hc => hnr hc.symm
          simp only [List.countP_cons, List.countP_nil]
          simp [hrn, h0]
    · refine ih _ ?_ ?_ n
      · intro n'
        exact hcnt n'
      · intro n' h'
        exact hidle n' h'

/-- The reassignment pass never duplicates an appointment: each freed
appointment is considered once, and the incoming lists are disjoint. -/
theorem reassign_appt_nodup (o : String → String → Option ℚ) (roster : Roster) :
    ∀ (unas : List Appointment) (acc : PassState),
      (acc.assignments.map (fun x => x.appointment) ++ unas).Nodup →
      ((unas.foldl (step3Go o roster) acc).assignments.map (fun x => x.appointment)).Nodup := by
  intro unas
  induction unas with
  | nil => intro acc hnd; simpa using hnd
  | cons a rest ih =>
    intro acc hnd
    rw [List.foldl_cons]
    rcases step3Go_cases o roster acc a with ⟨r, t, _, _, heq⟩ | heq <;> rw [heq]
    · apply ih
      show ((acc.assignments ++ [(⟨a, r, t⟩ : Assignment)]).map (fun x => x.appointment) ++ rest).Nodup
      rw [List.map_append, List.append_assoc]
      simpa using hnd
    · apply ih
      show (acc.assignments.map (fun x => x.appointment) ++ rest).Nodup
      refine List.Sublist.nodup ?_ hnd
      exact List.Sublist.append_left (List.sublist_cons_self a rest) _

/-! ## C1 — final assignment list is a partial injective mapping -/

/-- C1: with unique rep names (Python dict keys) and unique customer ids in
the (normalized) appointment collection (importer contract), the final
assignment list of a window is a partial injective mapping: no rep appears
in two final assignments, and no appointment appears in two final
assignments. -/
theorem C1_injectivity (o : String → String → Option ℚ) (parse : String → Int)
    (appts : List Appointment) (ros : Roster) (t0 t1 : Int)
    (hkeys : (ros.map Prod.fst).Nodup)
    (hnd : ((normalizeAppointments parse appts).map (fun a => a.custnumber)).Nodup) :
    ((assign_to_closest_rep o parse appts ros t0 t1).assignments.map
      (fun x => x.assigned_to)).Nodup ∧
    ((assign_to_closest_rep o parse appts ros t0 t1).assignments.map
      (fun x => x.appointment)).Nodup := by
  have hna : (normalizeAppointments parse appts).Nodup := List.Nodup.of_map _ hnd
  have hfil_nodup : (windowFilter parse t0 t1 (normalizeAppointments parse appts)).Nodup :=
    (List.filter_sublist _).nodup hna
  -- phase 1
  have hf1 : ∀ n, (initialPass o ros (windowFilter parse t0 t1 (normalizeAppointments parse appts)) initState).repAppts n =
      ((initialPass o ros (windowFilter parse t0 t1 (normalizeAppointments parse appts)) initState).assignments.filter
        (fun x => x.assigned_to == n)).map (fun x => x.appointment) := by
    apply step1_f_filter
    intro n
    rfl
  have helig1 : ∀ x ∈ (initialPass o ros (windowFilter parse t0 t1 (normalizeAppointments parse appts)) initState).assignments,
      ∃ d, (x.assigned_to, d) ∈ ros ∧ x.appointment.productid ∈ d.scope := by
    apply step1_elig
    intro x hx
    exact absurd hx (List.not_mem_nil x)
  have happt1 : List.Sublist
      ((initialPass o ros (windowFilter parse t0 t1 (normalizeAppointments parse appts)) initState).assignments.map
        (fun x => x.appointment))
      (windowFilter parse t0 t1 (normalizeAppointments parse appts)) := by
    have h := step1_appts_sublist o ros (windowFilter parse t0 t1 (normalizeAppointments parse appts))
      ⟨[], fun _ => [], initState⟩
    simpa using h
  set o1 := initialPass o ros (windowFilter parse t0 t1 (normalizeAppointments parse appts)) initState with ho1
  have hnd1 : (o1.assignments.map (fun x => x.appointment)).Nodup := happt1.nodup hfil_nodup
  have hnd1' : o1.assignments.Nodup := List.Nodup.of_map _ hnd1
  -- phase 2
  set r2 := resolveConflicts ros o1.repAppts o1.assignments with hr2
  have hr2sub : List.Sublist r2.1 o1.assignments := resolve_fold_sublist o1.repAppts ros (o1.assignments, [])
  have hcover : ∀ x ∈ o1.assignments, ∃ d, (x.assigned_to, d) ∈ ros :=
    fun x hx => (helig1 x hx).imp fun d hd => hd.1
  have hflen : ∀ r, (o1.repAppts r).length = o1.assignments.countP (fun x => x.assigned_to == r) := by
    intro r
    rw [hf1 r, List.length_map, List.countP_eq_length_filter]
  have hcnt2 : ∀ n, r2.1.countP (fun x => x.assigned_to == n) ≤ 1 :=
    fun n => resolve_count ros o1.repAppts o1.assignments hnd1' hflen hcover hkeys n
  have hidle2 : ∀ n, o1.repAppts n = [] → r2.1.countP (fun x => x.assigned_to == n) = 0 := by
    intro n hfn
    have h0 : o1.assignments.countP (fun x => x.assigned_to == n) = 0 := by
      have hmap : ((o1.assignments.filter (fun x => x.assigned_to == n)).map (fun x => x.appointment)) = [] := by
        rw [← hf1 n, hfn]
      have hlen := congrArg List.length hmap
      rw [List.length_map] at hlen
      rw [List.countP_eq_length_filter]
      simpa using hlen
    have hle := hr2sub.countP_le (fun x => x.assigned_to == n)
    omega
  have hperm2 : List.Perm (o1.assignments.map (fun x => x.appointment))
      (r2.1.map (fun x => x.appointment) ++ r2.2) := by
    have h := resolve_fold_perm o1.repAppts ros (o1.assignments, []) hnd1'
    simpa using h
  have hnd2 : (r2.1.map (fun x => x.appointment) ++ r2.2).Nodup := hperm2.nodup hnd1
  -- phase 3
  have hcnt3 := reassign_count o ros r2.2 ⟨r2.1, o1.repAppts, o1.state⟩ hcnt2 hidle2
  have hnd3 := reassign_appt_nodup o ros r2.2 ⟨r2.1, o1.repAppts, o1.state⟩ hnd2
  constructor
  · rw [List.nodup_iff_count_le_one]
    intro aName
    have h := hcnt3 aName
    simpa [List.count, List.countP_map, Function.comp] using h
  · exact hnd3

theorem C1_witness :
    ((([("R", ⟨"B", ["P"]⟩)] : Roster).map Prod.fst).Nodup ∧
      ((normalizeAppointments (fun _ => 0) [⟨"1", .parsed 0, "B", "P", "d"⟩]).map
        (fun a => a.custnumber)).Nodup) ∧
    (((assign_to_closest_rep (fun _ _ => some 60) (fun _ => 0)
        [⟨"1", .parsed 0, "B", "P", "d"⟩] [("R", ⟨"B", ["P"]⟩)] 0 7200).assignments.map
      (fun x => x.assigned_to)).Nodup ∧
    ((assign_to_closest_rep (fun _ _ => some 60) (fun _ => 0)
        [⟨"1", .parsed 0, "B", "P", "d"⟩] [("R", ⟨"B", ["P"]⟩)] 0 7200).assignments.map
      (fun x => x.appointment)).Nodup) :=
  ⟨⟨by decide, by decide⟩,
    C1_injectivity (fun _ _ => some 60) (fun _ => 0) [⟨"1", .parsed 0, "B", "P", "d"⟩]
      [("R", ⟨"B", ["P"]⟩)] 0 7200 (by decide) (by decide)⟩

/-! ## C2 — eligibility of every final assignment -/

/-- C2: every final assignment produced by `assign_to_closest_rep` — from
the initial pass or the reassignment pass — names a rep of the roster whose
scope contains the appointment's `productid` (the roster, and hence every
scope, is unchanged during the call). -/
theorem C2_eligibility (o : String → String → Option ℚ) (parse : String → Int)
    (appts : List Appointment) (ros : Roster) (t0 t1 : Int) :
    ∀ x ∈ (assign_to_closest_rep o parse appts ros t0 t1).assignments,
      ∃ d, (x.assigned_to, d) ∈ ros ∧ x.appointment.productid ∈ d.scope := by
  intro x hx
  have helig1 : ∀ y ∈ (initialPass o ros (windowFilter parse t0 t1 (normalizeAppointments parse appts)) initState).assignments,
      ∃ d, (y.assigned_to, d) ∈ ros ∧ y.appointment.productid ∈ d.scope := by
    apply step1_elig
    intro y hy
    exact absurd hy (List.not_mem_nil y)
  set o1 := initialPass o ros (windowFilter parse t0 t1 (normalizeAppointments parse appts)) initState with ho1
  set r2 := resolveConflicts ros o1.repAppts o1.assignments with hr2
  have hr2sub : List.Sublist r2.1 o1.assignments :=
    resolve_fold_sublist o1.repAppts ros (o1.assignments, [])
  have hx' : x ∈ (reassignPass o ros r2.2 r2.1 o1.repAppts o1.state).assignments := hx
  exact step3_elig o ros r2.2 ⟨r2.1, o1.repAppts, o1.state⟩
    (fun y hy => helig1 y (hr2sub.subset hy)) x hx'

theorem C2_witness :
    ((⟨⟨"1", .parsed 0, "B", "P", "d"⟩, "R", 60⟩ : Assignment) ∈
      (assign_to_closest_rep (fun _ _ => some 60) (fun _ => 0)
        [⟨"1", .parsed 0, "B", "P", "d"⟩] [("R", ⟨"B", ["P"]⟩)] 0 7200).assignments) ∧
    (∃ d, (("R" : String), d) ∈ ([("R", ⟨"B", ["P"]⟩)] : Roster) ∧
      ("P" : String) ∈ d.scope) :=
  ⟨by decide,
    C2_eligibility (fun _ _ => some 60) (fun _ => 0) [⟨"1", .parsed 0, "B", "P", "d"⟩]
      [("R", ⟨"B", ["P"]⟩)] 0 7200 ⟨⟨"1", .parsed 0, "B", "P", "d"⟩, "R", 60⟩ (by decide)⟩

/-! ## C7 — oracle failure handling -/

/-- C7: (1) a failed oracle call makes `get_drive_time` return the unknown
marker, cache nothing (the cache field is unchanged), and record a
diagnostic; (2) a chosen candidate always has a successful lookup, so a rep
whose lookup failed is never the selected candidate of a match; (3) every
appointment of a window either appears in the final assignment list or has
a per-appointment diagnostic in the log — an oracle failure is at worst an
unassigned appointment, never an abort (the engine is a total function and
processes the remaining appointments). -/
theorem C7_failure_handling :
    (∀ (o : String → String → Option ℚ) (z1 z2 : String) (s : EngineState),
      s.cache.lookup (cacheKey z1 z2) = none → o z1 z2 = none →
      get_drive_time o z1 z2 s =
        (none, { s with calls := s.calls + 1, log := s.log ++ [apiFailMsg z1 z2] })) ∧
    (∀ (o : String → String → Option ℚ) (z pid : String) (roster : Roster)
      (s : EngineState) (r' : String) (t' : ℚ),
      (selectClosest o z pid roster s).1 = some (r', t') →
      ∃ l₁ p l₂, roster = l₁ ++ p :: l₂ ∧ p.1 = r' ∧
        (get_drive_time o z p.2.curr_zip (selectClosest o z pid roster s).2).1 = some t') ∧
    (∀ (o : String → String → Option ℚ) (parse : String → Int)
      (appts : List Appointment) (ros : Roster) (t0 t1 : Int) (a : Appointment),
      a ∈ windowFilter parse t0 t1 (normalizeAppointments parse appts) →
      (∃ x ∈ (assign_to_closest_rep o parse appts ros t0 t1).assignments, x.appointment = a) ∨
      noRepMsg a ∈ (assign_to_closest_rep o parse appts ros t0 t1).state.log ∨
      couldNotMsg a ∈ (assign_to_closest_rep o parse appts ros t0 t1).state.log) := by
  refine ⟨?_, ?_, ?_⟩
  · intro o z1 z2 s hc ho
    unfold get_drive_time
    rw [hc, ho]
  · intro o z pid roster s r' t' h
    have h' : (roster.foldl (considerRep o z (eligScope pid)) (none, s)).1 = some (r', t') := h
    rcases fold_first o z (eligScope pid) roster (none, s) r' t' h' with hL | ⟨l₁, p, l₂, hsplit, hname, _, hlast, _, _⟩
    · exact Option.noConfusion hL
    · exact ⟨l₁, p, l₂, hsplit, hname, hlast⟩
  · intro o parse appts ros t0 t1 a ha
    set o1 := initialPass o ros (windowFilter parse t0 t1 (normalizeAppointments parse appts)) initState with ho1
    set r2 := resolveConflicts ros o1.repAppts o1.assignments with hr2
    rcases step1_assigned_or_logged o ros (windowFilter parse t0 t1 (normalizeAppointments parse appts))
        ⟨[], fun _ => [], initState⟩ a ha with ⟨x, hx, hxa⟩ | hlog
    · rcases resolve_fold_mem_or o1.repAppts ros (o1.assignments, []) x hx with hx2 | hx2
      · left
        exact ⟨x, step3_fold_asg_mono o ros r2.2 ⟨r2.1, o1.repAppts, o1.state⟩ x hx2, hxa⟩
      · rw [hxa] at hx2
        rcases step3_assigned_or_logged o ros r2.2 ⟨r2.1, o1.repAppts, o1.state⟩ a hx2 with h | h
        · left; exact h
        · right; right; exact h
    · right; left
      exact step3_fold_log_mono o ros r2.2 ⟨r2.1, o1.repAppts, o1.state⟩ (noRepMsg a) hlog

theorem C7_witness :
    (initState.cache.lookup (cacheKey "A" "B") = none) ∧
    (get_drive_time (fun _ _ => none) "A" "B" initState =
      (none, { initState with calls := initState.calls + 1, log := initState.log ++ [apiFailMsg "A" "B"] })) :=
  ⟨by decide, C7_failure_handling.1 (fun _ _ => none) "A" "B" initState (by decide) rfl⟩

/-! ## Roster-state-updater lemmas -/

/-- The appointments currently assigned to rep `k`, in assignment order. -/
def assignedAppts (asgs : List Assignment) (k : String) : List Appointment :=
  (asgs.filter fun x => x.assigned_to == k).map fun x => x.appointment

theorem assignedAppts_cons (x : Assignment) (xs : List Assignment) (k : String) :
    assignedAppts (x :: xs) k =
      (if x.assigned_to == k then [x.appointment] else []) ++ assignedAppts xs k := by
  unfold assignedAppts
  rw [List.filter_cons]
  cases h : x.assigned_to == k with
  | true => simp
  | false => simp

theorem addToGroup_spec (acc : List (String × List Appointment))
    (A : String → List Appointment) (r : String) (a : Appointment)
    (hkeys : (acc.map Prod.fst).Nodup)
    (hacc : ∀ k l, (k, l) ∈ acc ↔ (l = A k ∧ l ≠ [])) :
    ((addToGroup acc r a).map Prod.fst).Nodup ∧
    (∀ k l, (k, l) ∈ addToGroup acc r a ↔
      (l = A k ++ (if r == k then [a] else []) ∧ l ≠ [])) := by
  by_cases hany : acc.any (fun p => p.1 == r) = true
  · unfold addToGroup
    rw [if_pos hany]
    have hmap_keys : ((acc.map fun p => if p.1 == r then (p.1, p.2 ++ [a]) else p).map
        Prod.fst) = acc.map Prod.fst := by
      rw [List.map_map]
      apply List.map_congr_left
      intro p _
      by_cases hp : p.1 = r <;> simp [hp]
    refine ⟨by rw [hmap_keys]; exact hkeys, ?_⟩
    intro k l
    constructor
    · intro hmem
      rcases List.mem_map.mp hmem with ⟨p, hp, himg⟩
      by_cases hpr : p.1 = r
      · rw [if_pos (by simp [hpr])] at himg
        injection himg with hk hl
        have hpacc := (hacc p.1 p.2).mp (by simpa using hp)
        subst hk
        refine ⟨?_, by rw [← hl]; simp⟩
        rw [← hl, hpacc.1]
        simp [hpr]
      · rw [if_neg (by simp [hpr])] at himg
        have hpmem : (k, l) ∈ acc := himg ▸ hp
        have hh := (hacc k l).mp hpmem
        have hk : p.1 = k := by rw [himg]
        have hrk : r ≠ k := fun hc => hpr (hk.trans hc.symm)
        refine ⟨?_, hh.2⟩
        rw [hh.1]
        simp [beq_eq_false_iff_ne.mpr hrk]
    · rintro ⟨hl, hlne⟩
      by_cases hrk : r = k
      · subst hrk
        rcases List.any_eq_true.mp hany with ⟨p, hp, hpr⟩
        have hpr' : p.1 = r := by simpa using hpr
        have hpacc := (hacc p.1 p.2).mp (by simpa using hp)
        refine List.mem_map.mpr ⟨p, hp, ?_⟩
        rw [if_pos (by simp [hpr'])]
        have hsnd : p.2 ++ [a] = l := by
          rw [hpacc.1, hpr', hl]
          simp
        rw [hpr', hsnd]
      · refine List.mem_map.mpr ⟨(k, l), ?_, ?_⟩
        · apply (hacc k l).mpr
          refine ⟨?_, hlne⟩
          rw [hl]
          simp [beq_eq_false_iff_ne.mpr hrk]
        · rw [if_neg (by simp only [beq_iff_eq]; exact fun hc => hrk hc.symm)]
  · unfold addToGroup
    rw [if_neg hany]
    have hnew : ∀ p ∈ acc, p.1 ≠ r := by
      intro p hp hc
      exact hany (List.any_eq_true.mpr ⟨p, hp, by simp [hc]⟩)
    have hAr : A r = [] := by
      by_contra hc
      exact hnew (r, A r) ((hacc r (A r)).mpr ⟨rfl, hc⟩) rfl
    constructor
    · rw [List.map_append, List.nodup_append]
      refine ⟨hkeys, by simp, ?_⟩
      intro k hk
      rcases List.mem_map.mp hk with ⟨p, hp, rfl⟩
      simp only [List.map_cons, List.map_nil, List.mem_cons, List.not_mem_nil, or_false]
      exact fun hc => hnew p hp hc
    · intro k l
      rw [List.mem_append]
      constructor
      · rintro (h | h)
        · have hh := (hacc k l).mp h
          have hrk : r ≠ k := by
            intro hc
            subst hc
            exact hnew (r, l) h rfl
          refine ⟨?_, hh.2⟩
          rw [hh.1]
          simp [beq_eq_false_iff_ne.mpr hrk]
        · have h' := List.mem_singleton.mp h
          injection h' with hk hl
          subst hk
          refine ⟨?_, by rw [hl]; simp⟩
          rw [hl, hAr]
          simp
      · rintro ⟨hl, hlne⟩
        by_cases hrk : r = k
        · right
          subst hrk
          rw [hAr] at hl
          simp at hl
          rw [hl]
          exact List.mem_singleton.mpr rfl
        · left
          apply (hacc k l).mpr
          refine ⟨?_, hlne⟩
          rw [hl]
          simp [beq_eq_false_iff_ne.mpr hrk]

theorem groupByRep_fold_spec :
    ∀ (rest : List Assignment) (acc : List (String × List Appointment))
      (A : String → List Appointment),
      (acc.map Prod.fst).Nodup →
      (∀ k l, (k, l) ∈ acc ↔ (l = A k ∧ l ≠ [])) →
      (((rest.foldl (fun acc x => addToGroup acc x.assigned_to x.appointment) acc).map
        Prod.fst).Nodup) ∧
      (∀ k l, (k, l) ∈ rest.foldl (fun acc x => addToGroup acc x.assigned_to x.appointment) acc ↔
        (l = A k ++ assignedAppts rest k ∧ l ≠ [])) := by
  intro rest
  induction rest with
  | nil =>
    intro acc A hkeys hacc
    refine ⟨hkeys, ?_⟩
    intro k l
    rw [List.foldl_nil]
    have : A k ++ assignedAppts [] k = A k := by
      unfold assignedAppts
      simp
    rw [this]
    exact hacc k l
  | cons x xs ih =>
    intro acc A hkeys hacc
    rw [List.foldl_cons]
    rcases addToGroup_spec acc A x.assigned_to x.appointment hkeys hacc with ⟨hk1, hm1⟩
    rcases ih (addToGroup acc x.assigned_to x.appointment)
      (fun k => A k ++ (if x.assigned_to == k then [x.appointment] else [])) hk1 hm1 with ⟨hk2, hm2⟩
    refine ⟨hk2, ?_⟩
    intro k l
    rw [hm2 k l, assignedAppts_cons, ← List.append_assoc]

theorem groupByRep_keys_nodup (asgs : List Assignment) :
    ((groupByRep asgs).map Prod.fst).Nodup := by
  unfold groupByRep
  exact (groupByRep_fold_spec asgs [] (fun _ => []) (by simp) (by simp)).1

theorem groupByRep_mem (asgs : List Assignment) (k : String) (l : List Appointment) :
    (k, l) ∈ groupByRep asgs ↔ (l = assignedAppts asgs k ∧ l ≠ []) := by
  unfold groupByRep
  have h := (groupByRep_fold_spec asgs [] (fun _ => []) (by simp) (by simp)).2 k l
  simpa using h

theorem setCurrZip_mem_ne (ros : Roster) (r z n : String) (d : RepDetails)
    (h : (n, d) ∈ ros) (hne : n ≠ r) : (n, d) ∈ setCurrZip ros r z := by
  unfold setCurrZip
  refine List.mem_map.mpr ⟨(n, d), h, ?_⟩
  rw [if_neg (by simpa using hne)]

theorem setCurrZip_mem_self (ros : Roster) (z n : String) (d : RepDetails)
    (h : (n, d) ∈ ros) : (n, { d with curr_zip := z }) ∈ setCurrZip ros n z := by
  unfold setCurrZip
  refine List.mem_map.mpr ⟨(n, d), h, ?_⟩
  rw [if_pos rfl]

theorem update_fold_preserve (parse : String → Int) :
    ∀ (groups : List (String × List Appointment)) (ros : Roster) (n : String)
      (d : RepDetails), (n, d) ∈ ros → (∀ g ∈ groups, g.1 ≠ n) →
      (n, d) ∈ groups.foldl
        (fun acc p =>
          match (p.2.insertionSort
              (fun x y => dateOf parse x.apptdate ≤ dateOf parse y.apptdate)).getLast? with
          | some lastA => setCurrZip acc p.1 lastA.Zip
          | none => acc)
        ros := by
  intro groups
  induction groups with
  | nil => intro ros n d h _; exact h
  | cons g gs ih =>
    intro ros n d h hne
    rw [List.foldl_cons]
    apply ih
    · cases hlast : (g.2.insertionSort
          (fun x y => dateOf parse x.apptdate ≤ dateOf parse y.apptdate)).getLast? with
      | some lastA =>
        exact setCurrZip_mem_ne ros g.1 lastA.Zip n d h
          (fun hc => hne g (List.mem_cons_self g gs) hc.symm)
      | none => exact h
    · intro g' hg'
      exact hne g' (List.mem_cons_of_mem g hg')

theorem update_fold_set (parse : String → Int) (groups : List (String × List Appointment))
    (ros : Roster) (n : String) (d : RepDetails) (l : List Appointment)
    (hmem : (n, d) ∈ ros) (hg : (n, l) ∈ groups)
    (hkeys : (groups.map Prod.fst).Nodup) (la : Appointment)
    (hla : (l.insertionSort
      (fun x y => dateOf parse x.apptdate ≤ dateOf parse y.apptdate)).getLast? = some la) :
    (n, { d with curr_zip := la.Zip }) ∈ groups.foldl
      (fun acc p =>
        match (p.2.insertionSort
            (fun x y => dateOf parse x.apptdate ≤ dateOf parse y.apptdate)).getLast? with
        | some lastA => setCurrZip acc p.1 lastA.Zip
        | none => acc)
      ros := by
  rcases List.append_of_mem hg with ⟨g1, g2, rfl⟩
  have hkeys' := hkeys
  rw [List.map_append, List.map_cons] at hkeys'
  have hg1 : ∀ g ∈ g1, g.1 ≠ n := by
    intro g hgm hc
    have h1 : g.1 ∈ g1.map Prod.fst := List.mem_map_of_mem Prod.fst hgm
    rw [hc] at h1
    exact (List.disjoint_of_nodup_append hkeys') h1 (by simp)
  have hg2 : ∀ g ∈ g2, g.1 ≠ n := by
    intro g hgm hc
    have h2 := (List.nodup_append.mp hkeys').2.1
    rw [List.nodup_cons] at h2
    have h1 : g.1 ∈ g2.map Prod.fst := List.mem_map_of_mem Prod.fst hgm
    rw [hc] at h1
    exact h2.1 h1
  rw [List.foldl_append, List.foldl_cons]
  apply update_fold_preserve parse g2 _ n _ _ hg2
  have hpre := update_fold_preserve parse g1 ros n d hmem hg1
  show (n, { d with curr_zip := la.Zip }) ∈
    (match ((n, l).2.insertionSort
        (fun x y => dateOf parse x.apptdate ≤ dateOf parse y.apptdate)).getLast? with
      | some lastA => setCurrZip (g1.foldl _ ros) (n, l).1 lastA.Zip
      | none => (g1.foldl _ ros))
  rw [show ((n, l).2 : List Appointment) = l from rfl, hla]
  exact setCurrZip_mem_self _ la.Zip n d hpre

theorem sorted_le_getLast (r : Appointment → Appointment → Prop) :
    ∀ (l : List Appointment), l.Pairwise r → ∀ la, l.getLast? = some la →
      ∀ y ∈ l, y = la ∨ r y la := by
  intro l
  induction l with
  | nil => intro _ la h; exact absurd h (by simp)
  | cons x xs ih =>
    intro hp la hlast y hy
    cases xs with
    | nil =>
      rcases List.mem_singleton.mp hy with rfl
      have hy2 : y = la := by simpa using hlast
      exact Or.inl hy2
    | cons x2 xs2 =>
      rw [List.getLast?_cons_cons] at hlast
      rcases List.mem_cons.mp hy with rfl | hy'
      · right
        have hla_mem : la ∈ x2 :: xs2 := List.mem_of_mem_getLast? hlast
        exact (List.pairwise_cons.mp hp).1 la hla_mem
      · exact ih (List.pairwise_cons.mp hp).2 la hlast y hy'

theorem sorted_getLast_max (parse : String → Int) (l : List Appointment) (la : Appointment)
    (h : (l.insertionSort
      (fun x y => dateOf parse x.apptdate ≤ dateOf parse y.apptdate)).getLast? = some la) :
    la ∈ l ∧ ∀ y ∈ l, dateOf parse y.apptdate ≤ dateOf parse la.apptdate := by
  haveI htot : IsTotal Appointment (fun x y => dateOf parse x.apptdate ≤ dateOf parse y.apptdate) :=
    ⟨fun a b => le_total _ _⟩
  haveI htr : IsTrans Appointment (fun x y => dateOf parse x.apptdate ≤ dateOf parse y.apptdate) :=
    ⟨fun a b c hab hbc => le_trans hab hbc⟩
  have hsorted : (l.insertionSort
      (fun x y => dateOf parse x.apptdate ≤ dateOf parse y.apptdate)).Pairwise
      (fun x y => dateOf parse x.apptdate ≤ dateOf parse y.apptdate) :=
    List.sorted_insertionSort _ l
  have hmem : la ∈ l :=
    (List.perm_insertionSort (fun x y => dateOf parse x.apptdate ≤ dateOf parse y.apptdate) l).subset
      (List.mem_of_mem_getLast? h)
  refine ⟨hmem, ?_⟩
  intro y hy
  have hy' : y ∈ l.insertionSort (fun x y => dateOf parse x.apptdate ≤ dateOf parse y.apptdate) :=
    (List.perm_insertionSort (fun x y => dateOf parse x.apptdate ≤ dateOf parse y.apptdate) l).symm.subset hy
  rcases sorted_le_getLast _ _ hsorted la h y hy' with rfl | hle
  · exact le_refl _
  · exact hle

/-! ## C4 — roster state carry-over -/

/-- C4: after `update_sales_reps_zip` runs on a window's final assignment
list, a rep with no assignment keeps its entry (curr_zip and every other
field) unchanged, and a rep with at least one assignment ends with
`curr_zip` equal to the `Zip` of an assignment of theirs whose appointment
date is maximal among that rep's assignments (the record update leaves the
scope untouched). -/
theorem C4_roster_carry_over (parse : String → Int) (asgs : List Assignment)
    (ros : Roster) (n : String) (d : RepDetails) (hmem : (n, d) ∈ ros) :
    ((∀ x ∈ asgs, x.assigned_to ≠ n) → (n, d) ∈ update_sales_reps_zip parse asgs ros) ∧
    (∀ x ∈ asgs, x.assigned_to = n →
      ∃ y ∈ asgs, y.assigned_to = n ∧
        (n, { d with curr_zip := y.appointment.Zip }) ∈ update_sales_reps_zip parse asgs ros ∧
        ∀ w ∈ asgs, w.assigned_to = n →
          dateOf parse w.appointment.apptdate ≤ dateOf parse y.appointment.apptdate) := by
  constructor
  · intro hno
    unfold update_sales_reps_zip
    apply update_fold_preserve parse (groupByRep asgs) ros n d hmem
    intro g hg hc
    have hgm := (groupByRep_mem asgs g.1 g.2).mp (by simpa using hg)
    have hempty : assignedAppts asgs n = [] := by
      unfold assignedAppts
      have hf : asgs.filter (fun x => x.assigned_to == n) = [] := by
        apply List.filter_eq_nil_iff.mpr
        intro x hx
        simp [hno x hx]
      rw [hf]
      rfl
    rw [hc] at hgm
    exact hgm.2 (hgm.1.trans hempty)
  · intro x hx hxn
    have hne : assignedAppts asgs n ≠ [] := by
      unfold assignedAppts
      intro hc
      have hxf : x ∈ asgs.filter (fun x => x.assigned_to == n) :=
        List.mem_filter.mpr ⟨hx, by simp [hxn]⟩
      rw [List.map_eq_nil_iff] at hc
      rw [hc] at hxf
      exact absurd hxf (List.not_mem_nil x)
    have hgmem : (n, assignedAppts asgs n) ∈ groupByRep asgs :=
      (groupByRep_mem asgs n _).mpr ⟨rfl, hne⟩
    have hsne : (assignedAppts asgs n).insertionSort
        (fun x y => dateOf parse x.apptdate ≤ dateOf parse y.apptdate) ≠ [] := by
      intro hc
      apply hne
      have hlen := (List.perm_insertionSort
        (fun x y => dateOf parse x.apptdate ≤ dateOf parse y.apptdate)
        (assignedAppts asgs n)).length_eq
      rw [hc] at hlen
      exact List.eq_nil_of_length_eq_zero hlen.symm
    obtain ⟨la, hla⟩ : ∃ la, ((assignedAppts asgs n).insertionSort
        (fun x y => dateOf parse x.apptdate ≤ dateOf parse y.apptdate)).getLast? = some la := by
      cases hq : ((assignedAppts asgs n).insertionSort
          (fun x y => dateOf parse x.apptdate ≤ dateOf parse y.apptdate)).getLast? with
      | some la => exact ⟨la, rfl⟩
      | none => exact absurd (List.getLast?_eq_none_iff.mp hq) hsne
    have hmax := sorted_getLast_max parse (assignedAppts asgs n) la hla
    have hla_mem := hmax.1
    unfold assignedAppts at hla_mem
    rcases List.mem_map.mp hla_mem with ⟨y, hyf, hyla⟩
    rcases List.mem_filter.mp hyf with ⟨hy, hyn⟩
    refine ⟨y, hy, by simpa using hyn, ?_, ?_⟩
    · have hset := update_fold_set parse (groupByRep asgs) ros n d (assignedAppts asgs n)
        hmem hgmem (groupByRep_keys_nodup asgs) la hla
      rw [hyla]
      exact hset
    · intro w hw hwn
      have hwmem : w.appointment ∈ assignedAppts asgs n := by
        unfold assignedAppts
        exact List.mem_map_of_mem _ (List.mem_filter.mpr ⟨hw, by simp [hwn]⟩)
      rw [hyla]
      exact hmax.2 w.appointment hwmem

theorem C4_witness :
    ((("R", (⟨"X", ["P"]⟩ : RepDetails)) ∈ ([("R", ⟨"X", ["P"]⟩)] : Roster)) ∧
      ((⟨⟨"1", .parsed 5, "Z5", "P", "d"⟩, "R", 1⟩ : Assignment) ∈
        ([⟨⟨"1", .parsed 5, "Z5", "P", "d"⟩, "R", 1⟩,
          ⟨⟨"2", .parsed 10, "Z10", "P", "d"⟩, "R", 2⟩] : List Assignment))) ∧
    (∃ y ∈ ([⟨⟨"1", .parsed 5, "Z5", "P", "d"⟩, "R", 1⟩,
        ⟨⟨"2", .parsed 10, "Z10", "P", "d"⟩, "R", 2⟩] : List Assignment),
      y.assigned_to = "R" ∧
      (("R" : String), { (⟨"X", ["P"]⟩ : RepDetails) with curr_zip := y.appointment.Zip }) ∈
        update_sales_reps_zip (fun _ => 0)
          [⟨⟨"1", .parsed 5, "Z5", "P", "d"⟩, "R", 1⟩,
           ⟨⟨"2", .parsed 10, "Z10", "P", "d"⟩, "R", 2⟩] [("R", ⟨"X", ["P"]⟩)] ∧
      ∀ w ∈ ([⟨⟨"1", .parsed 5, "Z5", "P", "d"⟩, "R", 1⟩,
          ⟨⟨"2", .parsed 10, "Z10", "P", "d"⟩, "R", 2⟩] : List Assignment),
        w.assigned_to = "R" →
          dateOf (fun _ => 0) w.appointment.apptdate ≤
            dateOf (fun _ => 0) y.appointment.apptdate) :=
  ⟨⟨by decide, by decide⟩,
    (C4_roster_carry_over (fun _ => 0)
      [⟨⟨"1", .parsed 5, "Z5", "P", "d"⟩, "R", 1⟩,
       ⟨⟨"2", .parsed 10, "Z10", "P", "d"⟩, "R", 2⟩]
      [("R", ⟨"X", ["P"]⟩)] "R" ⟨"X", ["P"]⟩ (by decide)).2
      ⟨⟨"1", .parsed 5, "Z5", "P", "d"⟩, "R", 1⟩ (by decide) rfl⟩

/-! ## Orchestrator lemmas -/

theorem normalize_idem (parse : String → Int) (l : List Appointment) :
    normalizeAppointments parse (normalizeAppointments parse l) =
      normalizeAppointments parse l := by
  unfold normalizeAppointments
  rw [List.map_map]
  apply List.map_congr_left
  intro a _
  show normalizeAppt parse (normalizeAppt parse a) = normalizeAppt parse a
  unfold normalizeAppt normDate
  cases a.apptdate <;> rfl

/-- Every assignment the engine returns serves an appointment of the
window's filtered subset. -/
theorem engine_appt_mem (o : String → String → Option ℚ) (parse : String → Int)
    (appts : List Appointment) (ros : Roster) (t0 t1 : Int) (x : Assignment)
    (hx : x ∈ (assign_to_closest_rep o parse appts ros t0 t1).assignments) :
    x.appointment ∈ windowFilter parse t0 t1 (normalizeAppointments parse appts) := by
  set o1 := initialPass o ros (windowFilter parse t0 t1 (normalizeAppointments parse appts)) initState with ho1
  set r2 := resolveConflicts ros o1.repAppts o1.assignments with hr2
  have hsub : List.Sublist (o1.assignments.map (fun y => y.appointment))
      (windowFilter parse t0 t1 (normalizeAppointments parse appts)) := by
    have h := step1_appts_sublist o ros (windowFilter parse t0 t1 (normalizeAppointments parse appts))
      ⟨[], fun _ => [], initState⟩
    simpa using h
  have hx' : x ∈ (reassignPass o ros r2.2 r2.1 o1.repAppts o1.state).assignments := hx
  rcases step3_appts_sub o ros r2.2 ⟨r2.1, o1.repAppts, o1.state⟩ x hx' with h | h
  · have h1 : x ∈ o1.assignments :=
      (resolve_fold_sublist o1.repAppts ros (o1.assignments, [])).subset h
    exact hsub.subset (List.mem_map_of_mem _ h1)
  · rcases resolve_fold_un_sub o1.repAppts ros (o1.assignments, []) x.appointment h with h' | h'
    · exact absurd h' (List.not_mem_nil _)
    · exact hsub.subset h'

/-- Every tagged result row of the orchestrator's fold comes from the
initial accumulator or from the window with the matching ordinal, serving
an appointment inside that window's filter. -/
theorem main_fold_mem (o : String → String → Option ℚ) (parse : String → Int)
    (edit : Nat → Roster → Roster) (na : List Appointment) :
    ∀ (ws : List (Nat × Int × Int × Bool)) (acc : MainOut) (w : Nat) (x : Assignment),
      (w, x) ∈ (ws.foldl
        (fun acc w =>
          let out := assign_to_closest_rep o parse na acc.roster w.2.1 w.2.2.1
          let ros1 := update_sales_reps_zip parse out.assignments acc.roster
          let ros2 := if w.2.2.2 then edit w.1 ros1 else ros1
          { results := acc.results ++ out.assignments.map (fun x => (w.1, x)),
            roster := ros2,
            calls := acc.calls + out.state.calls,
            log := acc.log ++ out.state.log }) acc).results →
      (w, x) ∈ acc.results ∨
      ∃ t0 t1 fl, (w, t0, t1, fl) ∈ ws ∧
        x.appointment ∈ windowFilter parse t0 t1 (normalizeAppointments parse na) := by
  intro ws
  induction ws with
  | nil => intro acc w x h; exact Or.inl h
  | cons w0 rest ih =>
    intro acc w x h
    rw [List.foldl_cons] at h
    rcases ih _ w x h with h' | ⟨t0, t1, fl, hmem, hfil⟩
    · have h'' : (w, x) ∈ acc.results ++
          (assign_to_closest_rep o parse na acc.roster w0.2.1 w0.2.2.1).assignments.map
            (fun y => (w0.1, y)) := h'
      rcases List.mem_append.mp h'' with h3 | h3
      · exact Or.inl h3
      · rcases List.mem_map.mp h3 with ⟨y, hy, heq⟩
        injection heq with hw hx'
        refine Or.inr ⟨w0.2.1, w0.2.2.1, w0.2.2.2, ?_, ?_⟩
        · rw [← hw]
          exact List.mem_cons_self w0 rest
        · rw [← hx']
          exact engine_appt_mem o parse na acc.roster w0.2.1 w0.2.2.1 y hy
    · exact Or.inr ⟨t0, t1, fl, List.mem_cons_of_mem w0 hmem, hfil⟩

/-! ## C10 — hard-coded window gaps -/

/-- C10: the three hard-coded windows of `main_workflow` are `[e, e+2h]`,
`[e+2h1m, e+5h]`, `[e+5h1m, last]` (seconds: 7200/7260, 18000/18060), so no
result row of a run can serve an appointment whose date lies strictly
between a window's end and the next window's start; and if the latest
appointment time is earlier than `e + 5h1m`, then window 3's interval is
empty and no result row is tagged with window 3. -/
theorem C10_window_gaps (o : String → String → Option ℚ) (parse : String → Int)
    (edit : Nat → Roster → Roster) (appts : List Appointment) (ros : Roster) :
    (∀ w x, (w, x) ∈ (main_workflow o parse edit appts ros).results →
      ¬ (minDate parse (normalizeAppointments parse appts) + 7200 <
            dateOf parse x.appointment.apptdate ∧
          dateOf parse x.appointment.apptdate <
            minDate parse (normalizeAppointments parse appts) + 7260) ∧
      ¬ (minDate parse (normalizeAppointments parse appts) + 18000 <
            dateOf parse x.appointment.apptdate ∧
          dateOf parse x.appointment.apptdate <
            minDate parse (normalizeAppointments parse appts) + 18060)) ∧
    (maxDate parse (normalizeAppointments parse appts) <
        minDate parse (normalizeAppointments parse appts) + 18060 →
      ∀ x, (3, x) ∉ (main_workflow o parse edit appts ros).results) := by
  have hmain : ∀ w x, (w, x) ∈ (main_workflow o parse edit appts ros).results →
      ∃ t0 t1 fl, (w, t0, t1, fl) ∈ timeWindows
          (minDate parse (normalizeAppointments parse appts))
          (maxDate parse (normalizeAppointments parse appts)) ∧
        x.appointment ∈ windowFilter parse t0 t1 (normalizeAppointments parse appts) := by
    intro w x h
    have h' := main_fold_mem o parse edit (normalizeAppointments parse appts)
      (timeWindows (minDate parse (normalizeAppointments parse appts))
        (maxDate parse (normalizeAppointments parse appts)))
      ⟨[], ros, 0, []⟩ w x h
    rcases h' with h'' | ⟨t0, t1, fl, hw, hfil⟩
    · exact absurd h'' (List.not_mem_nil _)
    · rw [normalize_idem] at hfil
      exact ⟨t0, t1, fl, hw, hfil⟩
  constructor
  · intro w x h
    rcases hmain w x h with ⟨t0, t1, fl, hw, hfil⟩
    have hdate := ((C9_window_partitioner parse t0 t1 (normalizeAppointments parse appts)).2
      x.appointment).mp hfil
    have hb1 := hdate.2.1
    have hb2 := hdate.2.2
    simp only [timeWindows, List.mem_cons, List.not_mem_nil, or_false] at hw
    rcases hw with hw | hw | hw <;> injection hw with _ hw' <;> injection hw' with h1 hw'' <;>
      injection hw'' with h2 h3 <;> subst h1 <;> subst h2 <;> omega
  · intro hlast x h
    rcases hmain 3 x h with ⟨t0, t1, fl, hw, hfil⟩
    have hdate := ((C9_window_partitioner parse t0 t1 (normalizeAppointments parse appts)).2
      x.appointment).mp hfil
    have hb1 := hdate.2.1
    have hb2 := hdate.2.2
    simp only [timeWindows, List.mem_cons, List.not_mem_nil, or_false] at hw
    rcases hw with hw | hw | hw <;> injection hw with hn hw' <;>
      first
        | exact absurd hn.symm (by omega)
        | (injection hw' with h1 hw''
           injection hw'' with h2 h3
           subst h1
           subst h2
           omega)

theorem C10_witness :
    ((1, (⟨⟨"1", .parsed 0, "B", "P", "d"⟩, "R", 60⟩ : Assignment)) ∈
      (main_workflow (fun _ _ => some 60) (fun _ => 0) (fun _ r => r)
        [⟨"1", .parsed 0, "B", "P", "d"⟩, ⟨"2", .parsed 7230, "B", "P", "d"⟩]
        [("R", ⟨"B", ["P"]⟩)]).results) ∧
    (¬ (minDate (fun _ => 0) (normalizeAppointments (fun _ => 0)
          [⟨"1", .parsed 0, "B", "P", "d"⟩, ⟨"2", .parsed 7230, "B", "P", "d"⟩]) + 7200 <
        dateOf (fun _ => 0)
          ((⟨⟨"1", .parsed 0, "B", "P", "d"⟩, "R", 60⟩ : Assignment)).appointment.apptdate ∧
       dateOf (fun _ => 0)
          ((⟨⟨"1", .parsed 0, "B", "P", "d"⟩, "R", 60⟩ : Assignment)).appointment.apptdate <
        minDate (fun _ => 0) (normalizeAppointments (fun _ => 0)
          [⟨"1", .parsed 0, "B", "P", "d"⟩, ⟨"2", .parsed 7230, "B", "P", "d"⟩]) + 7260)) ∧
    (maxDate (fun _ => 0) (normalizeAppointments (fun _ => 0)
        [⟨"1", .parsed 0, "B", "P", "d"⟩, ⟨"2", .parsed 7230, "B", "P", "d"⟩]) <
      minDate (fun _ => 0) (normalizeAppointments (fun _ => 0)
        [⟨"1", .parsed 0, "B", "P", "d"⟩, ⟨"2", .parsed 7230, "B", "P", "d"⟩]) + 18060) ∧
    (∀ x, (3, x) ∉
      (main_workflow (fun _ _ => some 60) (fun _ => 0) (fun _ r => r)
        [⟨"1", .parsed 0, "B", "P", "d"⟩, ⟨"2", .parsed 7230, "B", "P", "d"⟩]
        [("R", ⟨"B", ["P"]⟩)]).results) :=
  ⟨by decide,
    ((C10_window_gaps (fun _ _ => some 60) (fun _ => 0) (fun _ r => r)
      [⟨"1", .parsed 0, "B", "P", "d"⟩, ⟨"2", .parsed 7230, "B", "P", "d"⟩]
      [("R", ⟨"B", ["P"]⟩)]).1 1 ⟨⟨"1", .parsed 0, "B", "P", "d"⟩, "R", 60⟩ (by decide)).1,
    by decide,
    (C10_window_gaps (fun _ _ => some 60) (fun _ => 0) (fun _ r => r)
      [⟨"1", .parsed 0, "B", "P", "d"⟩, ⟨"2", .parsed 7230, "B", "P", "d"⟩]
      [("R", ⟨"B", ["P"]⟩)]).2 (by decide)⟩

end LuxuryBath
